import Mathlib

/-!
Verification development for the `femtobot` skill package system.

The Rust sources under `src/skills/` are shallowly embedded here:
strings are modelled as `List Char` (file contents, low-level parsing) and
`String` (names, path components); filesystem paths as `List String`
(component lists); the filesystem as a finite list of files; the YAML
deserializer (`serde_yaml`, an external crate) as an explicit function
parameter; the ambient OS state (current platform, executables on `PATH`)
as an explicit `Env` record.  Fallible Rust functions returning
`Result`/`Option` are embedded as `Except`/`Option`-valued functions.
-/

namespace Femto

/-! ## Generic character-list helpers (embedding `str` primitives) -/

/-- Rust `str::trim` start: drop leading whitespace. -/
def ltrim (l : List Char) : List Char := l.dropWhile Char.isWhitespace

/-- Rust `str::trim` end: drop trailing whitespace. -/
def rtrim (l : List Char) : List Char :=
  (l.reverse.dropWhile Char.isWhitespace).reverse

/-- Rust `str::trim`: drop whitespace on both ends. -/
def trim (l : List Char) : List Char := rtrim (ltrim l)

/-- `String`-valued wrapper of `trim` (Rust `s.trim().to_string()`). -/
def strTrim (s : String) : String := String.mk (trim s.data)

/-- Rust `str::to_ascii_lowercase` (`Char.toLower` is ASCII-only, as in Rust). -/
def lowerStr (s : String) : String := String.mk (s.data.map Char.toLower)

/-- Rust `str::eq_ignore_ascii_case`. -/
def eqIgnoreCase (a b : String) : Bool := lowerStr a = lowerStr b

/-- Rust `str::trim_end_matches(['\r', '\n'])`. -/
def trimEndCrLf (l : List Char) : List Char :=
  (l.reverse.dropWhile (fun c => c = '\r' || c = '\n')).reverse

/-- Rust `str::contains(sub)` on character lists. -/
def hasInfix (l sub : List Char) : Bool :=
  l.tails.any (fun t => sub.isPrefixOf t)

/-- Split at the last occurrence of `c` (Rust `str::rfind` + slicing /
`str::rsplit_once`): `some (before, after)` where `before`/`after` exclude
the matched character, `none` when `c` does not occur. -/
def rsplitChar (c : Char) : List Char → Option (List Char × List Char)
  | [] => none
  | x :: xs =>
    match rsplitChar c xs with
    | some (a, b) => some (x :: a, b)
    | none => if x = c then some ([], xs) else none

/-- Rust `str::split(c)`: all pieces, empty pieces included. -/
def splitOnChar (c : Char) : List Char → List (List Char)
  | [] => [[]]
  | x :: xs =>
    if x = c then [] :: splitOnChar c xs
    else
      match splitOnChar c xs with
      | [] => [[x]]
      | y :: ys => (x :: y) :: ys

/-- Rust `str::split_inclusive('\n')`: chunks that keep their terminating
newline; the final chunk may lack one; the empty string has no chunks. -/
def splitInclusiveNl : List Char → List (List Char)
  | [] => []
  | c :: rest =>
    match splitInclusiveNl rest with
    | [] => [[c]]
    | chunk :: chunks =>
      if c = '\n' then [c] :: chunk :: chunks else (c :: chunk) :: chunks

/-- Strip one trailing `'\r'` (what Rust `str::lines` does per line). -/
def stripCr (l : List Char) : List Char :=
  if l.getLast? = some '\r' then l.dropLast else l

/-- Drop a trailing empty piece (Rust `str::lines` does not yield a final
empty line after a terminating newline). -/
def dropLastEmpty : List (List Char) → List (List Char)
  | [] => []
  | [p] => if p.isEmpty then [] else [p]
  | p :: ps => p :: dropLastEmpty ps

/-- Rust `str::lines`. -/
def rustLines (l : List Char) : List (List Char) :=
  (dropLastEmpty (splitOnChar '\n' l)).map stripCr

/-- Keep the first occurrence of each element (models one directory entry
per name from `read_dir`). -/
def dedupFirstAux (seen : List String) : List String → List String
  | [] => []
  | a :: rest =>
    if a ∈ seen then dedupFirstAux seen rest
    else a :: dedupFirstAux (a :: seen) rest

def dedupFirst (l : List String) : List String := dedupFirstAux [] l

/-- Rust `Vec::dedup`: collapse consecutive equal elements. -/
def dedupAdj : List String → List String
  | [] => []
  | [a] => [a]
  | a :: b :: rest =>
    if a = b then dedupAdj (b :: rest) else a :: dedupAdj (b :: rest)

/-- Lexicographic strict order on character lists by code point (agrees
with Rust's byte-wise `Ord` on `str` since UTF-8 preserves code-point
order). -/
def clLt : List Char → List Char → Bool
  | [], [] => false
  | [], _ :: _ => true
  | _ :: _, [] => false
  | a :: as, b :: bs => if a.toNat < b.toNat then true else if a = b then clLt as bs else false

def strLt (a b : String) : Bool := clLt a.data b.data

/-- Stable insertion of a string into a sorted list (strictly-less keeps
the run of equal elements in front, as a stable sort does). -/
def insertStr (a : String) : List String → List String
  | [] => [a]
  | b :: rest => if strLt a b then a :: b :: rest else b :: insertStr a rest

/-- Embeds Rust `Vec::<String>::sort` (stable comparison sort; for a total
order any stable sort computes the same list, so insertion sort stands in
for the standard library's merge sort). -/
def sortStrings : List String → List String
  | [] => []
  | a :: rest => insertStr a (sortStrings rest)

/-- Decimal rendering of a machine integer (Rust `format!("{index}")`),
structurally recursive on a fuel bound so the kernel can evaluate it. -/
def natReprAux : Nat → Nat → List Char
  | 0, _ => []
  | fuel + 1, n => if n = 0 then [] else natReprAux fuel (n / 10) ++ [Nat.digitChar (n % 10)]

def natRepr (n : Nat) : List Char :=
  if n = 0 then ['0'] else natReprAux (n + 1) n

/-! ## `src/skills/hub/install.rs`: `sanitize_name` -/

/-- The character class kept verbatim by `sanitize_name`
(`ch.is_ascii_lowercase() || ch.is_ascii_digit() || ch == '.' || ch == '_'`). -/
def allowedChar (c : Char) : Bool :=
  c.isLower || c.isDigit || c = '.' || c = '_'

/-- Characters stripped from both ends by `sanitize_name`. -/
def stripChar (c : Char) : Bool := c = '.' || c = '-'

/-- The push loop of `sanitize_name`: `previous_dash` is the mutable flag. -/
def sanitizeLoop : Bool → List Char → List Char
  | _, [] => []
  | previousDash, c :: rest =>
    if allowedChar c then c :: sanitizeLoop false rest
    else if previousDash then sanitizeLoop true rest
    else '-' :: sanitizeLoop true rest

/-- `install.rs::sanitize_name`. -/
def sanitize_name (name : String) : String :=
  let lower := name.data.map Char.toLower
  let sanitized := sanitizeLoop false lower
  let stripped := ((sanitized.dropWhile stripChar).reverse.dropWhile stripChar).reverse
  if stripped.isEmpty then "unnamed-skill" else String.mk (stripped.take 255)

/-- Spec-side collapse: every maximal run of disallowed characters becomes
one `'-'`; written from the spec's words for claim C4. -/
def specCollapse : List Char → List Char
  | [] => []
  | c :: rest =>
    if allowedChar c then c :: specCollapse rest
    else '-' :: specCollapse (rest.dropWhile (fun d => !allowedChar d))
termination_by l => l.length
decreasing_by
  all_goals simp only [List.length_cons]
  · omega
  · exact Nat.lt_succ_of_le ((List.dropWhile_sublist _).length_le)

/-- Spec-side sanitization pipeline, following the spec sentence:
lowercase; collapse runs of disallowed characters to single dashes; strip
leading/trailing `.`/`-`; fixed fallback for an empty result; truncate to
255 characters. -/
def sanitizeSpec (name : String) : String :=
  let lower := name.data.map Char.toLower
  let collapsed := specCollapse lower
  let stripped := ((collapsed.dropWhile stripChar).reverse.dropWhile stripChar).reverse
  if stripped.isEmpty then "unnamed-skill" else String.mk (stripped.take 255)

/-! ## `src/skills/hub/source.rs`: source address parsing -/

/-- A filesystem path as its list of components (`PathBuf`). -/
abbrev Path := List String

/-- `source.rs::ParsedSource`.  `subpath` keeps the joined `/`-separated
form the code builds with `segments[2..].join("/")`. -/
structure ParsedSource where
  original : String
  git_url : Option String
  local_path : Option String
  ref_name : Option String
  subpath : Option String
  skill_filter : Option String
deriving DecidableEq, Repr

/-- `source.rs::is_local_path` (`Path::is_absolute` on Unix is a leading
`/`). -/
def is_local_path (input : String) : Bool :=
  input.data.head? = some '/' || "./".data.isPrefixOf input.data ||
    "../".data.isPrefixOf input.data || input = "." || input = ".."

/-- The `rfind('@')` block shared by the shorthand parse: when the last
`@` sits at a positive index, the text before it is the repo-and-path and
the trimmed nonempty text after it the skill filter. -/
def splitSkillFilter (l : List Char) : List Char × Option String :=
  match rsplitChar '@' l with
  | some (a, b) =>
    if a.isEmpty then (l, none)
    else
      let raw := trim b
      (a, if raw.isEmpty then none else some (String.mk raw))
  | none => (l, none)

/-- `source.rs::parse_owner_repo_source`; `Ok(None)` becomes `none`
(the function never constructs an `Err`). -/
def parse_owner_repo_source (source : String) : Option ParsedSource :=
  let looksLikeUrl := hasInfix source.data "://".data || "git@".data.isPrefixOf source.data
  if looksLikeUrl then none
  else
    let split := splitSkillFilter source.data
    let repoAndPath := split.1
    let skillFilter := split.2
    let segments := (splitOnChar '/' repoAndPath).filter (fun part => !part.isEmpty)
    if segments.length < 2 then none
    else
      let owner := segments.headI
      let repo := (segments.drop 1).headI
      if owner.head? = some '.' || repo.head? = some '.' || owner.contains '.' then none
      else
        let subpath :=
          if segments.length > 2 then
            some (String.mk (List.intercalate ['/'] (segments.drop 2)))
          else none
        some { original := source
               git_url := some ("https://github.com/" ++ String.mk owner ++ "/" ++ String.mk repo ++ ".git")
               local_path := none
               ref_name := none
               subpath := subpath
               skill_filter := skillFilter }

/-- `source.rs::parse_source`.  The GitHub-web-URL branch delegates to the
external `url` crate, so it is taken as a function parameter `ghp`; the
claims settled here never reach that branch. -/
def parse_source (ghp : String → Except String (Option ParsedSource))
    (source : String) : Except String ParsedSource :=
  let trimmed := strTrim source
  if trimmed.data.isEmpty then .error "source cannot be empty"
  else if is_local_path trimmed then
    .ok { original := trimmed, git_url := none, local_path := some trimmed,
          ref_name := none, subpath := none, skill_filter := none }
  else
    match parse_owner_repo_source trimmed with
    | some parsed => .ok parsed
    | none =>
      match ghp trimmed with
      | .error e => .error e
      | .ok (some parsed) => .ok parsed
      | .ok none =>
        .ok { original := trimmed, git_url := some trimmed, local_path := none,
              ref_name := none, subpath := none, skill_filter := none }

/-- Spec-side restatement of the owner/repo shorthand parse, written from
claim C3's words, to be compared with `parse_owner_repo_source`. -/
def ownerRepoSpec (source : String) : Option ParsedSource :=
  let split := splitSkillFilter source.data
  let segments := (splitOnChar '/' split.1).filter (fun part => !part.isEmpty)
  match segments with
  | owner :: repo :: rest =>
    if owner.head? = some '.' || repo.head? = some '.' || owner.contains '.' then none
    else
      some { original := source
             git_url := some ("https://github.com/" ++ String.mk owner ++ "/" ++ String.mk repo ++ ".git")
             local_path := none
             ref_name := none
             subpath := if rest.isEmpty then none else some (String.mk (List.intercalate ['/'] rest))
             skill_filter := split.2 }
  | _ => none

/-! ## `src/skills/hub/source.rs`: filters and install names -/

/-- `source.rs::DiscoveredSkill` (`dir` as a component path). -/
structure DiscoveredSkill where
  dir : Path
  name : Option String
deriving DecidableEq, Repr

/-- `source.rs::normalize_filters` (the `for` loop pushing into `out`). -/
def normalize_filters : List String → List String
  | [] => []
  | raw :: rest =>
    let trimmed := trim raw.data
    if trimmed.isEmpty then normalize_filters rest
    else
      let extracted :=
        match rsplitChar '@' trimmed with
        | some (_, skill) => skill
        | none => trimmed
      String.mk ((trim extracted).map Char.toLower) :: normalize_filters rest

/-- Spec-side normalization for the amended claim C5: per entry, the
lowercased trimmed text after the last `@` (the whole entry when it has
no `@`); entries blank after the initial trim are dropped, while entries
that become blank only after the `@`-prefix strip yield empty strings. -/
def normalizeFiltersSpec (filters : List String) : List String :=
  filters.filterMap (fun raw =>
    let trimmed := trim raw.data
    if trimmed.isEmpty then none
    else
      let extracted :=
        match rsplitChar '@' trimmed with
        | some (_, skill) => skill
        | none => trimmed
      some (String.mk ((trim extracted).map Char.toLower)))

/-- `source.rs::filter_discovered_skills`. -/
def filter_discovered_skills (skills : List DiscoveredSkill) (filters : List String) :
    List DiscoveredSkill :=
  let normalizedFilters := normalize_filters filters
  if normalizedFilters.isEmpty || normalizedFilters.any (fun f => f = "*") then skills
  else
    skills.filter (fun skill =>
      let dirName := lowerStr (skill.dir.getLast?.getD "")
      let skillName := lowerStr (strTrim (skill.name.getD ""))
      normalizedFilters.any (fun needle => needle = dirName || needle = skillName))

/-- `format!("{base}-{index}")`. -/
def candName (base : String) (index : Nat) : String :=
  String.mk (base.data ++ '-' :: natRepr index)

/-- The unbounded `loop` of `source.rs::pick_unique_install_name`, run on
a fuel bound; `pickLoop_fuel_enough` below shows the fuel
`used.length + 1` used by `pick_unique_install_name` never runs out, so
the fuel branch is unreachable and the embedding agrees with the source's
unbounded loop. -/
def pickLoop (base : String) (used : List String) : Nat → Nat → String × List String
  | 0, index => (candName base index, used ++ [candName base index])
  | fuel + 1, index =>
    let candidate := candName base index
    if candidate ∈ used then pickLoop base used fuel (index + 1)
    else (candidate, used ++ [candidate])

/-- `source.rs::pick_unique_install_name`; the `HashSet<String>` of used
names is modelled as a list, `insert` as membership test plus append. -/
def pick_unique_install_name (base : String) (used : List String) : String × List String :=
  if base ∈ used then pickLoop base used (used.length + 1) 2
  else (base, used ++ [base])

/-! ## Frontmatter parsing

Two distinct parsers exist in the source: `manager.rs::split_frontmatter`
(runtime side, chunk based, yields yaml and body) and
`source.rs::parse_frontmatter` (installer side, line based, yields only
the frontmatter). -/

/-- Scan of the tail chunks in `manager.rs::split_frontmatter`: find the
first chunk whose `trim_end_matches(['\r','\n'])` is `---` or `...`; yaml
is the concatenation of the chunks before it (the byte slice
`content[first.len()..first.len()+yaml_len]`), the body the trimmed
concatenation of the chunks after it (`content[consumed..]`). -/
def fmScan : List (List Char) → Option (List Char × List Char)
  | [] => none
  | chunk :: rest =>
    let t := trimEndCrLf chunk
    if t = "---".data || t = "...".data then some ([], trim rest.flatten)
    else
      match fmScan rest with
      | some (yaml, body) => some (chunk ++ yaml, body)
      | none => none

/-- `manager.rs::split_frontmatter`. -/
def split_frontmatter (content : List Char) : Option (List Char × List Char) :=
  match splitInclusiveNl content with
  | [] => none
  | first :: chunks =>
    if trimEndCrLf first = "---".data then fmScan chunks else none

/-- `source.rs::SkillFrontmatter` (installer side: only `name`). -/
structure HubFrontmatter where
  name : Option String := none
deriving DecidableEq, Repr

/-- The installer-side yaml deserializer (`serde_yaml::from_str`, an
external crate) is abstracted as a function from the yaml text. -/
abbrev HubYamlParse := List Char → Option HubFrontmatter

/-- The yaml-collecting loop of `source.rs::parse_frontmatter`: stops at
the first line trimming to `---` (note: `...` is NOT accepted here),
returning the collected yaml and whether a closing line was seen. -/
def collectYaml : List (List Char) → List Char × Bool
  | [] => ([], false)
  | line :: rest =>
    if trim line = "---".data then ([], true)
    else
      let r := collectYaml rest
      (line ++ '\n' :: r.1, r.2)

/-- `source.rs::parse_frontmatter`. -/
def parse_frontmatter (markdown : List Char) (yp : HubYamlParse) : Option HubFrontmatter :=
  match rustLines markdown with
  | [] => none
  | first :: rest =>
    if trim first ≠ "---".data then none
    else
      let collected := collectYaml rest
      if !collected.2 || (trim collected.1).isEmpty then none
      else yp collected.1

/-- `source.rs::read_skill_name` over a file's content (the IO read is
resolved by the filesystem model). -/
def read_skill_name (yp : HubYamlParse) (content : List Char) : Option String :=
  (parse_frontmatter content yp).bind (fun fm => fm.name.map strTrim)

/-! ## Filesystem model

The on-disk state is a finite list of files; directories exist implicitly
as proper prefixes of file paths (the Rust code only ever creates
directories on the way to writing files in the flows modelled here). -/

structure FsFile where
  path : Path
  content : List Char
deriving DecidableEq, Repr

abbrev Fs := List FsFile

/-- `std::fs::read_to_string` (first file with the given path). -/
def lookupFile : Fs → Path → Option (List Char)
  | [], _ => none
  | f :: rest, p => if f.path = p then some f.content else lookupFile rest p

/-- `p` is a (non-strict) component prefix of `q`, with the remaining
components on success. -/
def remainderAfter : Path → Path → Option Path
  | [], q => some q
  | _, [] => none
  | r :: rs, q :: qs => if r = q then remainderAfter rs qs else none

/-- `Path::exists` for the model: some file lies at or below `p`. -/
def pathExists (fs : Fs) (p : Path) : Bool :=
  fs.any (fun f => (remainderAfter p f.path).isSome)

/-- `std::fs::remove_dir_all`: drop every file at or below `p`. -/
def removeDirAll (fs : Fs) (p : Path) : Fs :=
  fs.filter (fun f => (remainderAfter p f.path).isNone)

/-- `std::fs::read_dir` child directories: the immediate child names of
`root` that contain at least one file strictly below them (one entry per
name, in filesystem order). -/
def childNames (fs : Fs) (root : Path) : List String :=
  dedupFirst (fs.filterMap (fun f =>
    match remainderAfter root f.path with
    | some (c :: _ :: _) => some c
    | _ => none))

/-! ## `src/skills/hub/source.rs`: `discover_skills` (installer-side walk) -/

/-- `SKILL_FILE_NAME`. -/
def skillFileName : String := "SKILL.md"

/-- The directory denylist of `source.rs::should_descend_into_dir`. -/
def noiseDirs : List String :=
  [".git", "node_modules", "dist", "build", "__pycache__", "target", ".venv", "venv"]

/-- The walk admits a `SKILL.md` at `root ++ rel` when neither the root
entry's own name nor any directory on the way is denylisted
(`WalkDir::filter_entry(should_descend_into_dir)` checks the root entry
and every descendant directory). -/
def walkAdmits (root : Path) (rel : Path) : Bool :=
  (match root.getLast? with
   | some n => !noiseDirs.contains n
   | none => true) &&
  rel.dropLast.all (fun n => !noiseDirs.contains n)

/-- The walk portion of `source.rs::discover_skills`: every file named
`SKILL.md` reachable by the pruned walk, one `DiscoveredSkill` per parent
directory (`seen_dirs`), in filesystem order. -/
def hubWalk (yp : HubYamlParse) (fs : Fs) (root : Path) :
    List Path → List FsFile → List DiscoveredSkill
  | _, [] => []
  | seen, f :: rest =>
    match remainderAfter root f.path with
    | some rel =>
      if rel ≠ [] && rel.getLast? = some skillFileName && walkAdmits root rel then
        if root ++ rel.dropLast ∈ seen then hubWalk yp fs root seen rest
        else ⟨root ++ rel.dropLast, read_skill_name yp f.content⟩ ::
          hubWalk yp fs root ((root ++ rel.dropLast) :: seen) rest
      else hubWalk yp fs root seen rest
    | none => hubWalk yp fs root seen rest

/-- `source.rs::discover_skills` (the IO errors of the real walk do not
arise in the model, so the result is a plain list). -/
def hub_discover_skills (yp : HubYamlParse) (fs : Fs) (root : Path) : List DiscoveredSkill :=
  match lookupFile fs (root ++ [skillFileName]) with
  | some content =>
    ⟨root, read_skill_name yp content⟩ :: hubWalk yp fs root [root] fs
  | none => hubWalk yp fs root [] fs

/-! ## `src/skills/manager.rs`: the runtime skill manager -/

/-- `manager.rs::SkillMetadata`. -/
structure SkillMetadata where
  name : String
  description : String
  dir_path : Path
  platforms : List String
  deps : List String
  source : String
  version : Option String
  updated_at : Option String
deriving DecidableEq, Repr

/-- `manager.rs::SkillCompatibility`. -/
structure SkillCompatibility where
  os : List String := []
  deps : List String := []
deriving DecidableEq, Repr

/-- `manager.rs::SkillFrontmatter`. -/
structure SkillFrontmatter where
  name : Option String := none
  description : String := ""
  platforms : List String := []
  deps : List String := []
  compatibility : SkillCompatibility := {}
  source : Option String := none
  version : Option String := none
  updated_at : Option String := none
deriving DecidableEq, Repr

/-- The runtime-side yaml deserializer (`serde_yaml::from_str`, an
external crate) abstracted as a function from the yaml text. -/
abbrev YamlParse := List Char → Option SkillFrontmatter

/-- Ambient OS state: the running platform tag, and which executable
names resolve on `PATH` (the `PATH`-directory scan of
`manager.rs::command_exists` collapses to this predicate). -/
structure Env where
  currentPlatform : String
  cmdOnPath : String → Bool

/-- `manager.rs::normalize_platform`. -/
def normalize_platform (value : String) : String :=
  let t := lowerStr (strTrim value)
  if t = "macos" || t = "osx" then "darwin" else t

/-- `manager.rs::platform_allowed`. -/
def platform_allowed (env : Env) (platforms : List String) : Bool :=
  if platforms.isEmpty then true
  else platforms.any (fun platform =>
    let p := normalize_platform platform
    p = "all" || p = "*" || p = env.currentPlatform)

/-- `manager.rs::command_exists` (empty-after-trim commands count as
existing; otherwise the `PATH` scan decides). -/
def command_exists (env : Env) (command : String) : Bool :=
  if (trim command.data).isEmpty then true else env.cmdOnPath command

/-- `manager.rs::missing_deps`. -/
def missing_deps (env : Env) (deps : List String) : List String :=
  deps.filter (fun dep => !command_exists env dep)

/-- `manager.rs::SkillManager::skill_is_available`. -/
def skill_is_available (env : Env) (skill : SkillMetadata) : Except String Unit :=
  if !platform_allowed env skill.platforms then
    .error ("Skill '" ++ skill.name ++ "' is not available on this platform (current: " ++
      env.currentPlatform ++ ", supported: " ++ String.intercalate ", " skill.platforms ++ ").")
  else
    let missing := missing_deps env skill.deps
    if !missing.isEmpty then
      .error ("Skill '" ++ skill.name ++ "' is missing required dependencies: " ++
        String.intercalate ", " missing)
    else .ok ()

/-- `manager.rs::parse_skill_md` (the yaml deserialization is the `yp`
parameter; everything around it is the source's logic). -/
def parse_skill_md (yp : YamlParse) (content : List Char) (dir_path : Path)
    (default_source : String) : Option (SkillMetadata × List Char) :=
  match split_frontmatter (content.dropWhile (fun c => c = '\uFEFF')) with
  | none => none
  | some (yaml, body) =>
    if (trim yaml).isEmpty then none
    else
      match yp yaml with
      | none => none
      | some fm =>
        match (if (strTrim (fm.name.getD "")).data.isEmpty then dir_path.getLast?
            else some (strTrim (fm.name.getD ""))) with
        | none => none
        | some name =>
          some ({ name := name
                  description := fm.description
                  dir_path := dir_path
                  platforms := dedupAdj (sortStrings
                    (((fm.platforms ++ fm.compatibility.os).map normalize_platform).filter
                      (fun p => !p.data.isEmpty)))
                  deps := dedupAdj (sortStrings
                    (((fm.deps ++ fm.compatibility.deps).map strTrim).filter
                      (fun d => !d.data.isEmpty)))
                  source := ((fm.source.map strTrim).filter
                    (fun s => !s.data.isEmpty)).getD default_source
                  version := (fm.version.map strTrim).filter (fun s => !s.data.isEmpty)
                  updated_at := (fm.updated_at.map strTrim).filter
                    (fun s => !s.data.isEmpty) }, body)

/-- `manager.rs::SkillRoot`. -/
structure SkillRoot where
  path : Path
  source : String
deriving DecidableEq, Repr

/-- `manager.rs::SkillManager`. -/
structure SkillManager where
  roots : List SkillRoot
deriving DecidableEq, Repr

/-- `HashMap::insert` on the name-keyed merge map, modelled as an
association list (replace in place or append). -/
def insertAssoc (k : String) (v : SkillMetadata) :
    List (String × SkillMetadata) → List (String × SkillMetadata)
  | [] => [(k, v)]
  | (k', v') :: rest =>
    if k' = k then (k, v) :: rest else (k', v') :: insertAssoc k v rest

/-- Stable insertion sort on metadata by name
(`skills.sort_by(|a, b| a.name.cmp(&b.name))`). -/
def insertMeta (a : SkillMetadata) : List SkillMetadata → List SkillMetadata
  | [] => [a]
  | b :: rest => if strLt a.name b.name then a :: b :: rest else b :: insertMeta a rest

def sortMetas : List SkillMetadata → List SkillMetadata
  | [] => []
  | a :: rest => insertMeta a (sortMetas rest)

/-- The per-root loop body of
`manager.rs::SkillManager::discover_skills_internal`: scan the root's
child directories, parse each `SKILL.md`, and insert into the merge map
when unavailable entries are included or the entry passes both gates. -/
def rootScanStep (yp : YamlParse) (env : Env) (fs : Fs) (includeUnavailable : Bool)
    (root : SkillRoot) (m : List (String × SkillMetadata)) (c : String) :
    List (String × SkillMetadata) :=
  match lookupFile fs (root.path ++ [c] ++ [skillFileName]) with
  | none => m
  | some content =>
    match parse_skill_md yp content (root.path ++ [c]) root.source with
    | none => m
    | some (meta, _) =>
      if includeUnavailable || (skill_is_available env meta).isOk then
        insertAssoc (lowerStr meta.name) meta m
      else m

def rootScan (yp : YamlParse) (env : Env) (fs : Fs) (includeUnavailable : Bool)
    (root : SkillRoot) (merged : List (String × SkillMetadata)) :
    List (String × SkillMetadata) :=
  (childNames fs root.path).foldl (rootScanStep yp env fs includeUnavailable root) merged

/-- `manager.rs::SkillManager::discover_skills_internal`. -/
def discover_skills_internal (yp : YamlParse) (env : Env) (fs : Fs) (m : SkillManager)
    (includeUnavailable : Bool) : List SkillMetadata :=
  let merged := m.roots.foldl (fun acc root => rootScan yp env fs includeUnavailable root acc) []
  sortMetas (merged.map (fun kv => kv.2))

/-- `manager.rs::SkillManager::discover_skills` (the gated catalog). -/
def discover_skills (yp : YamlParse) (env : Env) (fs : Fs) (m : SkillManager) :
    List SkillMetadata :=
  discover_skills_internal yp env fs m false

/-- `manager.rs::SkillManager::load_skill_checked` (activation). -/
def load_skill_checked (yp : YamlParse) (env : Env) (fs : Fs) (m : SkillManager)
    (name : String) : Except String (SkillMetadata × List Char) :=
  let requested := strTrim name
  if requested.data.isEmpty then .error "Skill name cannot be empty."
  else
    let allSkills := discover_skills_internal yp env fs m true
    match allSkills.find? (fun skill => eqIgnoreCase skill.name requested) with
    | some skill =>
      match skill_is_available env skill with
      | .error e => .error e
      | .ok _ =>
        match lookupFile fs (skill.dir_path ++ [skillFileName]) with
        | some content =>
          match parse_skill_md yp content skill.dir_path skill.source with
          | some (meta, body) => .ok (meta, body)
          | none => .error ("Skill '" ++ requested ++ "' exists but could not be loaded.")
        | none => .error ("Skill '" ++ requested ++ "' exists but could not be loaded.")
    | none =>
      let available := discover_skills yp env fs m
      if available.isEmpty then
        .error ("Skill '" ++ requested ++ "' not found. No skills are currently available.")
      else
        .error ("Skill '" ++ requested ++ "' not found. Available skills: " ++
          String.intercalate ", " (available.map (fun s => s.name)))

/-! ## `src/skills/hub/install.rs`: filesystem install helpers -/

/-- `install.rs::is_safe_relative_path`: no parent-directory (and, in the
component model, no root/prefix) components. -/
def is_safe_relative_path (p : Path) : Bool :=
  p.all (fun component => component ≠ "..")

/-- `install.rs::prepare_install_target`. -/
def prepare_install_target (fs : Fs) (p : Path) (force : Bool) : Except String Fs :=
  if pathExists fs p then
    if !force then .error "target already exists (set force=true to overwrite)"
    else .ok (removeDirAll fs p)
  else .ok fs

/-- The per-entry walk of `install.rs::copy_directory`: copy each file
under the source, rejecting unsafe relative paths before its write
(earlier copies stay in place, as in the source). -/
def copyFiles (fs : Fs) (tgt : Path) : List (Path × List Char) → Except String Fs
  | [] => .ok fs
  | (rel, c) :: rest =>
    if !is_safe_relative_path rel then .error "unsafe relative path while copying"
    else copyFiles (fs ++ [⟨tgt ++ rel, c⟩]) tgt rest

/-- `install.rs::copy_directory` (symbolic links do not exist in the file
model; directory creation is implicit). -/
def copy_directory (fs : Fs) (src tgt : Path) : Except String Fs :=
  let entries := fs.filterMap (fun f =>
    match remainderAfter src f.path with
    | some [] => none
    | some rel => some (rel, f.content)
    | none => none)
  copyFiles fs tgt entries

/-- `install.rs::ensure_skill_md_exists`. -/
def ensure_skill_md_exists (fs : Fs) (dir : Path) : Except String Unit :=
  match lookupFile fs (dir ++ [skillFileName]) with
  | some _ => .ok ()
  | none => .error "installed directory is missing SKILL.md at root"

/-! ## `src/skills/hub/mod.rs`: `install_from_skills_source` -/

/-- `mod.rs::InstalledSkill`. -/
structure InstalledSkill where
  install_name : String
  path : Path
  source : String
  version : Option String
deriving DecidableEq, Repr

/-- The base-name derivation in the install loop of
`mod.rs::Skillhub::install_from_skills_source`. -/
def base_name_for (skill : DiscoveredSkill) : String :=
  let fromName := (skill.name.map sanitize_name).filter (fun s => !s.data.isEmpty)
  match fromName with
  | some s => s
  | none => sanitize_name ((skill.dir.getLast?).getD "skill")

/-- The per-skill install loop of
`mod.rs::Skillhub::install_from_skills_source`, threading the filesystem
and the batch's used names. -/
def installLoop (skillsRoot : Path) (force : Bool) (original : String) :
    Fs → List String → List DiscoveredSkill → Except String (List InstalledSkill × Fs)
  | fs, _, [] => .ok ([], fs)
  | fs, used, skill :: rest =>
    match pick_unique_install_name (base_name_for skill) used with
    | (iname, usedNext) =>
      match prepare_install_target fs (skillsRoot ++ [iname]) force with
      | .error e => .error e
      | .ok fs1 =>
        match copy_directory fs1 skill.dir (skillsRoot ++ [iname]) with
        | .error e => .error e
        | .ok fs2 =>
          match ensure_skill_md_exists fs2 (skillsRoot ++ [iname]) with
          | .error e => .error e
          | .ok _ =>
            match installLoop skillsRoot force original fs2 usedNext rest with
            | .error e => .error e
            | .ok (installed, fsFinal) =>
              .ok (⟨iname, skillsRoot ++ [iname], original, none⟩ :: installed, fsFinal)

/-- The parsed-source data reaching the local-path branch of
`install_from_skills_source` (the git-clone branch shells out to `git`
and is outside the filesystem model). -/
structure LocalSource where
  original : String
  local_path : Path
  subpath : Option Path
  skill_filter : Option String
deriving DecidableEq, Repr

/-- `mod.rs::Skillhub::install_from_skills_source`, local-source branch:
merge the caller's filters with the parsed skill filter, discover, filter,
then install each selected skill.  Returns the installed list and the
resulting filesystem. -/
def install_from_skills_source (yp : HubYamlParse) (fs : Fs) (parsed : LocalSource)
    (skill_filters : List String) (skillsRoot : Path) (force : Bool) :
    Except String (List InstalledSkill × Fs) :=
  let extraFilters := (skill_filters.map strTrim).filter (fun f => !f.data.isEmpty)
  let mergedFilters := extraFilters ++ (parsed.skill_filter.map (fun f => [f])).getD []
  let searchRoot := parsed.local_path ++ (parsed.subpath.getD [])
  if !pathExists fs searchRoot then .error "source subpath does not exist"
  else
    let discovered := hub_discover_skills yp fs searchRoot
    if discovered.isEmpty then .error "no SKILL.md files found in source"
    else
      let selected := filter_discovered_skills discovered mergedFilters
      if selected.isEmpty then .error "no skills matched filters"
      else installLoop skillsRoot force parsed.original fs [] selected

/-! ## `src/skills/hub/install.rs`: `extract_zip_to_dir` -/

/-- One zip entry as the extraction loop sees it: the raw name, the
`enclosed_name()` result of the external `zip` crate (a safely contained
relative path, or `none` for entries without an extractable name or whose
path escapes the target), whether it is a directory, and whether the
entry's filesystem operations succeed (`create_dir_all` / `File::create`
/ `io::copy` / `flush` collectively). -/
structure ZipEntry where
  name : List Char
  enclosedName : Option Path
  isDir : Bool
  ioOk : Bool
deriving DecidableEq, Repr

/-- A filesystem effect of extraction. -/
inductive FsOp
  | mkdir (p : Path)
  | write (p : Path)
deriving DecidableEq, Repr

def FsOp.target : FsOp → Path
  | .mkdir p => p
  | .write p => p

/-- `install.rs::extract_zip_to_dir`: the emitted filesystem operations
and the error, if any (a failing entry contributes no operation and aborts
the loop). -/
def extract_zip_to_dir : List ZipEntry → Path → List FsOp × Option String
  | [], _ => ([], none)
  | entry :: rest, targetDir =>
    match entry.enclosedName with
    | none => extract_zip_to_dir rest targetDir
    | some relPath =>
      let outPath := targetDir ++ relPath
      if entry.isDir || entry.name.getLast? = some '/' then
        if entry.ioOk then
          let r := extract_zip_to_dir rest targetDir
          (FsOp.mkdir outPath :: r.1, r.2)
        else ([], some "failed to create directory")
      else
        if entry.ioOk then
          let r := extract_zip_to_dir rest targetDir
          (FsOp.mkdir outPath.dropLast :: FsOp.write outPath :: r.1, r.2)
        else ([], some "failed to extract file")

/-! ## Statement-level fixtures and assemblers -/

/-- The install-name assignment thread of the batch loop in
`mod.rs::install_from_skills_source` (lines 267-296), isolated on the
list of base names. -/
def assignInstallNames : List String → List String → List String
  | _, [] => []
  | used, base :: rest =>
    let picked := pick_unique_install_name base used
    picked.1 :: assignInstallNames picked.2 rest

/-- Assemble a `SKILL.md` text: opening `---` line, the given
newline-free yaml lines, a closing delimiter line, then the body bytes. -/
def fmDoc (lines : List (List Char)) (close : List Char) (body : List Char) : List Char :=
  "---\n".data ++ (lines.map (fun l => l ++ ['\n'])).flatten ++ close ++ '\n' :: body

/-- A filesystem holding one skill directory under one root. -/
def fsOne (p : Path) (c : String) (content : List Char) : Fs :=
  [⟨p ++ [c, skillFileName], content⟩]

/-- A filesystem holding one skill directory under each of two roots. -/
def fsTwo (p1 : Path) (c1 : String) (content1 : List Char)
    (p2 : Path) (c2 : String) (content2 : List Char) : Fs :=
  [⟨p1 ++ [c1, skillFileName], content1⟩, ⟨p2 ++ [c2, skillFileName], content2⟩]

/-- A concrete installer-side yaml table for witnesses. -/
def demoHubYaml : HubYamlParse := fun y =>
  if y = "name: demo\n".data then some { name := some "demo" } else none

/-- A concrete runtime-side yaml table for witnesses: one manifest with no
dependencies and one declaring the dependency `xtool`. -/
def demoMgrYaml : YamlParse := fun y =>
  if y = "name: demo\n".data then some { name := some "demo" }
  else if y = "name: demo\ndeps: [xtool]\n".data then
    some { name := some "demo", deps := ["xtool"] }
  else none

/-- A concrete environment: Linux, no executable resolves on `PATH`. -/
def envBare : Env := ⟨"linux", fun _ => false⟩

/-- A concrete environment: Linux, every executable resolves on `PATH`. -/
def envFull : Env := ⟨"linux", fun _ => true⟩

/-- The install name a single-skill source receives in an empty batch:
the sanitized installer-side manifest name with the directory fallback
(`base_name_for` over the discovered skill). -/
def roundtripName (yph : HubYamlParse) (srcRoot : Path) (content : List Char) : String :=
  base_name_for ⟨srcRoot, read_skill_name yph content⟩

/-! ## Proofs -/

theorem sanitizeLoop_eq_specCollapse :
    ∀ (n : Nat) (l : List Char), l.length ≤ n →
      sanitizeLoop false l = specCollapse l ∧
      sanitizeLoop true l = specCollapse (l.dropWhile (fun d => !allowedChar d)) := by
  intro n
  induction n with
  | zero =>
    intro l hl
    have : l = [] := List.length_eq_zero.mp (Nat.le_zero.mp hl)
    subst this
    simp [sanitizeLoop, specCollapse, List.dropWhile]
  | succ n ih =>
    intro l hl
    cases l with
    | nil => simp [sanitizeLoop, specCollapse, List.dropWhile]
    | cons c rest =>
      have hr : rest.length ≤ n := by
        simpa using Nat.succ_le_succ_iff.mp (by simpa using hl)
      by_cases hc : allowedChar c
      · refine ⟨?_, ?_⟩
        · simp [sanitizeLoop, specCollapse, hc, (ih rest hr).1]
        · simp [sanitizeLoop, List.dropWhile, hc, specCollapse, (ih rest hr).1]
      · refine ⟨?_, ?_⟩
        · simp [sanitizeLoop, specCollapse, hc, (ih rest hr).2]
        · simp [sanitizeLoop, List.dropWhile, hc, (ih rest hr).2]

/-- C4: `sanitize_name` lowercases, maps every character outside
`[a-z0-9._]` to `-` collapsing runs of disallowed characters into a
single `-`, strips leading and trailing `.`/`-`, replaces an empty result
with the fixed fallback token `unnamed-skill`, and truncates to at most
255 characters (`sanitizeSpec` is that spec pipeline verbatim); and the
three concrete examples from the spec hold. -/
theorem c4_sanitize_name_matches_spec :
    (∀ s : String, sanitize_name s = sanitizeSpec s) ∧
    sanitize_name "  Hello World!  " = "hello-world" ∧
    sanitize_name "../My_Skill" = "my_skill" ∧
    sanitize_name "..." = "unnamed-skill" := by
  refine ⟨fun s => ?_, by decide, by decide, by decide⟩
  have h := (sanitizeLoop_eq_specCollapse (s.data.map Char.toLower).length
    (s.data.map Char.toLower) le_rfl).1
  simp only [sanitize_name, sanitizeSpec, h]

/-- C5 counterexample: the filter entry `"x@"` is non-blank, but becomes
blank once the text after the last `@` is taken; `normalize_filters`
keeps it as an empty string instead of dropping it, contradicting the
claim that such entries are dropped from the output. -/
theorem c5_counterexample_blank_after_strip :
    normalize_filters ["x@"] = [""] := by decide

/-- C5 (amended): normalization produces, for each entry, the lowercased
trimmed text after that entry's last `@` (the whole entry when it has no
`@`); entries blank after the initial trim are dropped, while entries
that become blank only after the `@`-prefix strip stay in the output as
empty strings (`normalizeFiltersSpec` states exactly that). -/
theorem c5_amended_normalize_filters :
    ∀ filters : List String, normalize_filters filters = normalizeFiltersSpec filters := by
  intro filters
  induction filters with
  | nil => rfl
  | cons raw rest ih =>
    simp only [normalize_filters, normalizeFiltersSpec, List.filterMap_cons] at *
    by_cases h : trim raw.data = []
    · simp [h, ih]
    · simp [h, ih]

/-- C3: on inputs without `://` and not starting with `git@` (the inputs
on which `parse_source` consults the shorthand parser after the
local-path check), `parse_owner_repo_source` behaves exactly as the claim
describes (`ownerRepoSpec`: split a trailing skill filter at the last
`@` when its index is positive, split the remainder on `/` dropping empty
segments, require at least two segments with owner/repo not starting
with `.` and owner without `.`, produce the GitHub git URL and join the
remaining segments into the subpath); and the spec's concrete example
parses as stated, whatever the GitHub-URL branch does. -/
theorem c3_owner_repo_shorthand :
    (∀ s : String, hasInfix s.data "://".data = false →
      "git@".data.isPrefixOf s.data = false →
      parse_owner_repo_source s = ownerRepoSpec s) ∧
    (∀ ghp, parse_source ghp "vercel-labs/agent-skills@web-design" =
      .ok { original := "vercel-labs/agent-skills@web-design",
            git_url := some "https://github.com/vercel-labs/agent-skills.git",
            local_path := none, ref_name := none, subpath := none,
            skill_filter := some "web-design" }) := by
  constructor
  · intro s h1 h2
    simp only [parse_owner_repo_source, ownerRepoSpec, h1, h2, Bool.or_self, if_false]
    cases hseg : (splitOnChar '/' (splitSkillFilter s.data).1).filter (fun part => !part.isEmpty) with
    | nil => simp [hseg]
    | cons owner t =>
      cases t with
      | nil => simp [hseg]
      | cons repo rest =>
        simp only [hseg, List.length_cons]
        by_cases hr : rest = []
        · subst hr; simp
        · have hlen : ¬ rest.length + 1 + 1 < 2 := by omega
          have hlen2 : 2 < rest.length + 1 + 1 := by
            cases rest with
            | nil => exact absurd rfl hr
            | cons a t => simp only [List.length_cons]; omega
          have hemp : rest.isEmpty = false := by
            cases rest with
            | nil => exact absurd rfl hr
            | cons a t => rfl
          simp [hlen, hlen2, hemp, List.headI, hr]
  · intro ghp
    have h0 : strTrim "vercel-labs/agent-skills@web-design" =
        "vercel-labs/agent-skills@web-design" := by decide
    have h1 : is_local_path "vercel-labs/agent-skills@web-design" = false := by decide
    have h2 : parse_owner_repo_source "vercel-labs/agent-skills@web-design" =
        some { original := "vercel-labs/agent-skills@web-design",
               git_url := some "https://github.com/vercel-labs/agent-skills.git",
               local_path := none, ref_name := none, subpath := none,
               skill_filter := some "web-design" } := by decide
    have h3 : ("vercel-labs/agent-skills@web-design" : String).data.isEmpty = false := by decide
    simp [parse_source, h0, h1, h2, h3]

/-- C3 witness: the general equivalence applied at a concrete input. -/
theorem c3_owner_repo_shorthand_witness :
    parse_owner_repo_source "a/b/c@f" = ownerRepoSpec "a/b/c@f" :=
  c3_owner_repo_shorthand.1 "a/b/c@f" (by decide) (by decide)

theorem digitChar_inj_fin : ∀ a b : Fin 10, Nat.digitChar a.val = Nat.digitChar b.val → a = b := by
  decide

theorem digitChar_inj (a b : Nat) (ha : a < 10) (hb : b < 10)
    (h : Nat.digitChar a = Nat.digitChar b) : a = b := by
  have := digitChar_inj_fin ⟨a, ha⟩ ⟨b, hb⟩ h
  exact congrArg Fin.val this

theorem natReprAux_zero_val (f : Nat) : natReprAux f 0 = [] := by
  cases f <;> simp [natReprAux]

theorem natReprAux_fuel : ∀ (n f g : Nat), n < f → n < g → natReprAux f n = natReprAux g n := by
  intro n
  induction n using Nat.strong_induction_on with
  | _ n ih =>
    intro f g hf hg
    cases f with
    | zero => omega
    | succ f =>
      cases g with
      | zero => omega
      | succ g =>
        by_cases h0 : n = 0
        · simp [natReprAux, h0]
        · simp only [natReprAux, h0, if_false]
          have hdiv : n / 10 < n := Nat.div_lt_self (Nat.pos_of_ne_zero h0) (by omega)
          rw [ih (n / 10) hdiv f g (by omega) (by omega)]

theorem natRepr_unfold (n : Nat) (hn : n ≠ 0) :
    natRepr n = (if n / 10 = 0 then [] else natRepr (n / 10)) ++ [Nat.digitChar (n % 10)] := by
  cases n with
  | zero => exact absurd rfl hn
  | succ m =>
    have hL : natRepr (m + 1) =
        natReprAux (m + 1) ((m + 1) / 10) ++ [Nat.digitChar ((m + 1) % 10)] := by
      simp [natRepr, natReprAux]
    rw [hL]
    by_cases hd : (m + 1) / 10 = 0
    · simp [hd, natReprAux_zero_val]
    · rw [if_neg hd]
      have hlt : (m + 1) / 10 < m + 1 := Nat.div_lt_self (by omega) (by omega)
      have hR : natRepr ((m + 1) / 10) = natReprAux ((m + 1) / 10 + 1) ((m + 1) / 10) := by
        simp [natRepr, hd]
      rw [hR, natReprAux_fuel ((m + 1) / 10) (m + 1) ((m + 1) / 10 + 1) hlt (by omega)]

theorem natRepr_ne_nil (n : Nat) : natRepr n ≠ [] := by
  by_cases hn : n = 0
  · subst hn; simp [natRepr]
  · rw [natRepr_unfold n hn]; simp

theorem natRepr_injective : ∀ a b : Nat, natRepr a = natRepr b → a = b := by
  intro a
  induction a using Nat.strong_induction_on with
  | _ a ih =>
    intro b h
    by_cases ha : a = 0
    · by_cases hb : b = 0
      · omega
      · exfalso
        subst ha
        rw [natRepr_unfold b hb] at h
        have h0 : natRepr 0 = ['0'] := rfl
        rw [h0] at h
        by_cases hd : b / 10 = 0
        · rw [if_pos hd, List.nil_append] at h
          injection h with hd1 _
          have : b % 10 = 0 := digitChar_inj _ 0 (Nat.mod_lt _ (by omega)) (by omega) hd1.symm
          omega
        · rw [if_neg hd] at h
          cases hnr : natRepr (b / 10) with
          | nil => exact natRepr_ne_nil _ hnr
          | cons x xs =>
            rw [hnr] at h
            have hlen := congrArg List.length h
            simp only [List.length_append, List.length_cons, List.length_nil] at hlen
            omega
    · by_cases hb : b = 0
      · exfalso
        subst hb
        rw [natRepr_unfold a ha] at h
        have h0 : natRepr 0 = ['0'] := rfl
        rw [h0] at h
        by_cases hd : a / 10 = 0
        · rw [if_pos hd, List.nil_append] at h
          injection h with hd1 _
          have : a % 10 = 0 := digitChar_inj _ 0 (Nat.mod_lt _ (by omega)) (by omega) hd1
          omega
        · rw [if_neg hd] at h
          cases hnr : natRepr (a / 10) with
          | nil => exact natRepr_ne_nil _ hnr
          | cons x xs =>
            rw [hnr] at h
            have hlen := congrArg List.length h
            simp only [List.length_append, List.length_cons, List.length_nil] at hlen
            omega
      · rw [natRepr_unfold a ha, natRepr_unfold b hb] at h
        have hrev := congrArg List.reverse h
        simp only [List.reverse_append, List.reverse_cons, List.reverse_nil,
          List.nil_append, List.singleton_append, List.cons.injEq] at hrev
        obtain ⟨hdig, hpre⟩ := hrev
        have hmod : a % 10 = b % 10 :=
          digitChar_inj _ _ (Nat.mod_lt _ (by omega)) (Nat.mod_lt _ (by omega)) hdig
        have hdivs : a / 10 = b / 10 := by
          have hpre' : (if a / 10 = 0 then ([] : List Char) else natRepr (a / 10)) =
              (if b / 10 = 0 then [] else natRepr (b / 10)) := by
            have := congrArg List.reverse hpre
            simpa using this
          by_cases hda : a / 10 = 0 <;> by_cases hdb : b / 10 = 0
          · omega
          · rw [if_pos hda, if_neg hdb] at hpre'
            exact absurd hpre'.symm (natRepr_ne_nil _)
          · rw [if_neg hda, if_pos hdb] at hpre'
            exact absurd hpre' (natRepr_ne_nil _)
          · rw [if_neg hda, if_neg hdb] at hpre'
            exact ih (a / 10) (Nat.div_lt_self (Nat.pos_of_ne_zero ha) (by omega)) (b / 10) hpre'
        omega

theorem candName_inj (base : String) (i j : Nat) (h : candName base i = candName base j) :
    i = j := by
  have hd := congrArg String.data h
  simp only [candName] at hd
  have := List.append_cancel_left hd
  exact natRepr_injective i j (List.cons.injEq .. ▸ this).2

theorem exists_free_cand (used : List String) (base : String) (idx : Nat) :
    ∃ i, idx ≤ i ∧ i < idx + (used.length + 1) ∧ candName base i ∉ used := by
  by_contra hcon
  push_neg at hcon
  have hsub : ((List.range (used.length + 1)).map (fun k => candName base (idx + k))) ⊆ used := by
    intro x hx
    simp only [List.mem_map, List.mem_range] at hx
    obtain ⟨k, hk, rfl⟩ := hx
    exact hcon (idx + k) (Nat.le_add_right _ _) (by omega)
  have hnd : ((List.range (used.length + 1)).map (fun k => candName base (idx + k))).Nodup := by
    refine List.Nodup.map ?_ (List.nodup_range _)
    intro x y hxy
    have := candName_inj base (idx + x) (idx + y) hxy
    omega
  have hlen := (hnd.subperm hsub).length_le
  simp only [List.length_map, List.length_range] at hlen
  omega

theorem pickLoop_spec : ∀ (fuel idx : Nat) (base : String) (used : List String),
    (∃ i, idx ≤ i ∧ i < idx + fuel ∧ candName base i ∉ used) →
    ∃ k, idx ≤ k ∧ candName base k ∉ used ∧
      (∀ j, idx ≤ j → j < k → candName base j ∈ used) ∧
      pickLoop base used fuel idx = (candName base k, used ++ [candName base k]) := by
  intro fuel
  induction fuel with
  | zero =>
    intro idx base used hex
    obtain ⟨i, h1, h2, _⟩ := hex
    omega
  | succ fuel ih =>
    intro idx base used hex
    by_cases hc : candName base idx ∈ used
    · obtain ⟨i, hi1, hi2, hi3⟩ := hex
      have hne : i ≠ idx := fun he => hi3 (he ▸ hc)
      obtain ⟨k, hk1, hk2, hk3, hk4⟩ := ih (idx + 1) base used ⟨i, by omega, by omega, hi3⟩
      refine ⟨k, by omega, hk2, ?_, ?_⟩
      · intro j hj1 hj2
        rcases Nat.eq_or_lt_of_le hj1 with he | hlt
        · exact he ▸ hc
        · exact hk3 j hlt hj2
      · simp [pickLoop, hc, hk4]
    · exact ⟨idx, le_rfl, hc, fun j hj1 hj2 => absurd hj1 (by omega),
        by simp [pickLoop, hc]⟩

theorem pick_unique_fresh (base : String) (used : List String) :
    (pick_unique_install_name base used).1 ∉ used ∧
    (pick_unique_install_name base used).2 = used ++ [(pick_unique_install_name base used).1] := by
  by_cases h : base ∈ used
  · obtain ⟨k, _, hk2, _, hk4⟩ :=
      pickLoop_spec (used.length + 1) 2 base used (exists_free_cand used base 2)
    simp [pick_unique_install_name, h, hk4, hk2]
  · simp [pick_unique_install_name, h]

theorem assignInstallNames_fresh_nodup : ∀ (bases used : List String),
    (∀ n ∈ assignInstallNames used bases, n ∉ used) ∧ (assignInstallNames used bases).Nodup := by
  intro bases
  induction bases with
  | nil => intro used; simp [assignInstallNames]
  | cons b rest ih =>
    intro used
    obtain ⟨hfresh, hupd⟩ := pick_unique_fresh b used
    obtain ⟨ih1, ih2⟩ := ih (pick_unique_install_name b used).2
    constructor
    · intro n hn
      simp only [assignInstallNames, List.mem_cons] at hn
      rcases hn with rfl | hn
      · exact hfresh
      · intro hcon
        exact ih1 n hn (hupd ▸ List.mem_append_left _ hcon)
    · simp only [assignInstallNames, List.nodup_cons]
      refine ⟨?_, ih2⟩
      intro hcon
      exact ih1 _ hcon (hupd ▸ List.mem_append_right _ (by simp))

/-- C9 counterexample: in the batch with base names `a`, `a`, `a-2`, the
third skill's base name `a-2` occurs for the first time as a base name,
yet its assigned install name is `a-2-2`, not `a-2` (the name `a-2` was
already taken by the second skill's collision suffix) — refuting the
claim that the first occurrence of each base name is used as-is. -/
theorem c9_counterexample_first_occurrence :
    assignInstallNames [] ["a", "a", "a-2"] = ["a", "a-2", "a-2-2"] := by decide

/-- C9 (amended): within one install batch the assigned install names are
pairwise distinct; a base name not yet used in the batch is used as-is,
and a colliding base name receives `base-k` for the smallest `k ≥ 2`
whose candidate is not yet used in the batch (the first occurrence of a
base name is therefore used as-is only when no earlier skill was already
assigned that exact name). -/
theorem c9_amended_unique_install_names :
    (∀ bases : List String, (assignInstallNames [] bases).Nodup) ∧
    (∀ (base : String) (used : List String), base ∉ used →
      pick_unique_install_name base used = (base, used ++ [base])) ∧
    (∀ (base : String) (used : List String), base ∈ used →
      ∃ k, 2 ≤ k ∧ candName base k ∉ used ∧
        (∀ j, 2 ≤ j → j < k → candName base j ∈ used) ∧
        pick_unique_install_name base used = (candName base k, used ++ [candName base k])) := by
  refine ⟨fun bases => (assignInstallNames_fresh_nodup bases []).2, ?_, ?_⟩
  · intro base used h
    simp [pick_unique_install_name, h]
  · intro base used h
    obtain ⟨k, hk1, hk2, hk3, hk4⟩ :=
      pickLoop_spec (used.length + 1) 2 base used (exists_free_cand used base 2)
    exact ⟨k, hk1, hk2, hk3, by simp [pick_unique_install_name, h, hk4]⟩

/-- C9 witness: the amended theorem applied at concrete inputs, both in
the fresh case and in the collision case. -/
theorem c9_amended_unique_install_names_witness :
    pick_unique_install_name "a" [] = ("a", ["a"]) ∧
    ∃ k, 2 ≤ k ∧ candName "a" k ∉ ["a"] ∧
      (∀ j, 2 ≤ j → j < k → candName "a" j ∈ ["a"]) ∧
      pick_unique_install_name "a" ["a"] = (candName "a" k, ["a"] ++ [candName "a" k]) :=
  ⟨c9_amended_unique_install_names.2.1 "a" [] (by decide),
   c9_amended_unique_install_names.2.2 "a" ["a"] (by decide)⟩

/-- C6: every filesystem path that zip extraction creates or writes lies
inside the target directory, with only safe components below it (given
the zip crate's documented contract that `enclosed_name` returns only
nonempty, safely contained relative paths); entries without an
extractable/containable name are skipped without error; the file branch
creates the needed parent directory before its write; and an I/O failure
while extracting any entry makes the whole extraction return an error. -/
theorem c6_extract_zip_to_dir_safety :
    (∀ (entries : List ZipEntry) (target : Path),
      (∀ e ∈ entries, ∀ rel, e.enclosedName = some rel →
        rel ≠ [] ∧ ∀ comp ∈ rel, comp ≠ ".." ∧ comp ≠ "") →
      ∀ op ∈ (extract_zip_to_dir entries target).1,
        ∃ r, op.target = target ++ r ∧ ∀ comp ∈ r, comp ≠ ".." ∧ comp ≠ "") ∧
    (∀ (e : ZipEntry) (rest : List ZipEntry) (target : Path), e.enclosedName = none →
      extract_zip_to_dir (e :: rest) target = extract_zip_to_dir rest target) ∧
    (∀ (entries : List ZipEntry) (target : Path),
      (extract_zip_to_dir entries target).2 = none ↔
        ∀ e ∈ entries, e.enclosedName.isSome = true → e.ioOk = true) ∧
    (∀ (e : ZipEntry) (rest : List ZipEntry) (target : Path) (rel : Path),
      e.enclosedName = some rel → e.isDir = false → e.name.getLast? ≠ some '/' →
      e.ioOk = true →
      extract_zip_to_dir (e :: rest) target =
        (FsOp.mkdir (target ++ rel).dropLast :: FsOp.write (target ++ rel) ::
          (extract_zip_to_dir rest target).1, (extract_zip_to_dir rest target).2)) := by
  refine ⟨?_, ?_, ?_, ?_⟩
  · intro entries
    induction entries with
    | nil => intro target hsafe op hop; simp [extract_zip_to_dir] at hop
    | cons e rest ih =>
      intro target hsafe op hop
      have hrest : ∀ e' ∈ rest, ∀ rel, e'.enclosedName = some rel →
          rel ≠ [] ∧ ∀ comp ∈ rel, comp ≠ ".." ∧ comp ≠ "" :=
        fun e' he' => hsafe e' (List.mem_cons_of_mem _ he')
      cases hen : e.enclosedName with
      | none =>
        rw [show extract_zip_to_dir (e :: rest) target = extract_zip_to_dir rest target from by
          simp [extract_zip_to_dir, hen]] at hop
        exact ih target hrest op hop
      | some rel =>
        obtain ⟨hne, hcomps⟩ := hsafe e (List.mem_cons_self _ _) rel hen
        by_cases hdir : e.isDir || e.name.getLast? = some '/'
        · by_cases hio : e.ioOk
          · simp only [extract_zip_to_dir, hen, hdir, hio, if_true, List.mem_cons] at hop
            rcases hop with rfl | hop
            · exact ⟨rel, rfl, hcomps⟩
            · exact ih target hrest op hop
          · simp only [extract_zip_to_dir, hen, hdir] at hop
            rw [if_neg hio] at hop
            simp at hop
        · by_cases hio : e.ioOk
          · simp only [extract_zip_to_dir, hen, hio, if_true, List.mem_cons] at hop
            rw [if_neg hdir] at hop
            simp only [List.mem_cons] at hop
            rcases hop with rfl | rfl | hop
            · refine ⟨rel.dropLast, ?_, ?_⟩
              · exact List.dropLast_append_of_ne_nil target hne
              · exact fun comp hc => hcomps comp ((List.dropLast_sublist rel).subset hc)
            · exact ⟨rel, rfl, hcomps⟩
            · exact ih target hrest op hop
          · simp only [extract_zip_to_dir, hen] at hop
            rw [if_neg hdir, if_neg hio] at hop
            simp at hop
  · intro e rest target h
    simp [extract_zip_to_dir, h]
  · intro entries
    induction entries with
    | nil => intro target; simp [extract_zip_to_dir]
    | cons e rest ih =>
      intro target
      cases hen : e.enclosedName with
      | none =>
        simp only [extract_zip_to_dir, hen]
        rw [ih target]
        constructor
        · intro h e' he' hs
          rcases List.mem_cons.mp he' with rfl | he'
          · rw [hen] at hs; simp at hs
          · exact h e' he' hs
        · intro h e' he' hs
          exact h e' (List.mem_cons_of_mem _ he') hs
      | some rel =>
        by_cases hdir : e.isDir || e.name.getLast? = some '/'
        · by_cases hio : e.ioOk
          · simp only [extract_zip_to_dir, hen, hdir, hio, if_true]
            rw [ih target]
            constructor
            · intro h e' he' hs
              rcases List.mem_cons.mp he' with rfl | he'
              · exact hio
              · exact h e' he' hs
            · intro h e' he' hs
              exact h e' (List.mem_cons_of_mem _ he') hs
          · simp only [extract_zip_to_dir, hen, hdir]
            rw [if_neg hio]
            constructor
            · intro h; exact absurd h (by simp)
            · intro h
              exact absurd (h e (List.mem_cons_self _ _) (by rw [hen]; rfl)) hio
        · by_cases hio : e.ioOk
          · simp only [extract_zip_to_dir, hen, hio, if_true]
            rw [if_neg hdir, ih target]
            constructor
            · intro h e' he' hs
              rcases List.mem_cons.mp he' with rfl | he'
              · exact hio
              · exact h e' he' hs
            · intro h e' he' hs
              exact h e' (List.mem_cons_of_mem _ he') hs
          · simp only [extract_zip_to_dir, hen]
            rw [if_neg hdir, if_neg hio]
            constructor
            · intro h; exact absurd h (by simp)
            · intro h
              exact absurd (h e (List.mem_cons_self _ _) (by rw [hen]; rfl)) hio
  · intro e rest target rel hen hd hs hio
    have hdir : (e.isDir || e.name.getLast? = some '/') = false := by
      simp [hd, hs]
    simp [extract_zip_to_dir, hen, hdir, hio]

/-- C6 witness: the safety theorem applied to a concrete two-entry
archive (one clean file entry, one entry whose name the zip crate could
not safely contain). -/
theorem c6_extract_zip_to_dir_safety_witness :
    (∃ r, (FsOp.write ["t", "a", "b"]).target = ["t"] ++ r ∧
      ∀ comp ∈ r, comp ≠ ".." ∧ comp ≠ "") ∧
    extract_zip_to_dir [⟨"../evil".data, none, false, true⟩] ["t"] =
      extract_zip_to_dir [] ["t"] ∧
    ((extract_zip_to_dir [⟨"a/b".data, some ["a", "b"], false, true⟩] ["t"]).2 = none ↔
      ∀ e ∈ [(⟨"a/b".data, some ["a", "b"], false, true⟩ : ZipEntry)],
        e.enclosedName.isSome = true → e.ioOk = true) ∧
    extract_zip_to_dir [⟨"a/b".data, some ["a", "b"], false, true⟩] ["t"] =
      (FsOp.mkdir (["t"] ++ ["a", "b"]).dropLast :: FsOp.write (["t"] ++ ["a", "b"]) ::
        (extract_zip_to_dir [] ["t"]).1, (extract_zip_to_dir [] ["t"]).2) :=
  ⟨c6_extract_zip_to_dir_safety.1 [⟨"a/b".data, some ["a", "b"], false, true⟩] ["t"]
      (by decide) (FsOp.write ["t", "a", "b"]) (by decide),
   c6_extract_zip_to_dir_safety.2.1 ⟨"../evil".data, none, false, true⟩ [] ["t"] (by decide),
   c6_extract_zip_to_dir_safety.2.2.1 [⟨"a/b".data, some ["a", "b"], false, true⟩] ["t"],
   c6_extract_zip_to_dir_safety.2.2.2 ⟨"a/b".data, some ["a", "b"], false, true⟩ [] ["t"]
      ["a", "b"] (by decide) (by decide) (by decide) (by decide)⟩

theorem trimEndCrLf_append_nl (l : List Char) : trimEndCrLf (l ++ ['\n']) = trimEndCrLf l := by
  simp [trimEndCrLf, List.dropWhile]

theorem splitInclusiveNl_chunk : ∀ (s t : List Char), (∀ c ∈ s, c ≠ '\n') →
    splitInclusiveNl (s ++ '\n' :: t) = (s ++ ['\n']) :: splitInclusiveNl t := by
  intro s
  induction s with
  | nil =>
    intro t _
    show splitInclusiveNl ('\n' :: t) = ['\n'] :: splitInclusiveNl t
    cases h : splitInclusiveNl t <;> simp [splitInclusiveNl, h]
  | cons c s' ih =>
    intro t hs
    have hc : c ≠ '\n' := hs c (List.mem_cons_self _ _)
    have hs' : ∀ d ∈ s', d ≠ '\n' := fun d hd => hs d (List.mem_cons_of_mem _ hd)
    show splitInclusiveNl (c :: (s' ++ '\n' :: t)) = _
    rw [show splitInclusiveNl (c :: (s' ++ '\n' :: t)) =
      match splitInclusiveNl (s' ++ '\n' :: t) with
      | [] => [[c]]
      | chunk :: chunks =>
        if c = '\n' then [c] :: chunk :: chunks else (c :: chunk) :: chunks from rfl]
    rw [ih t hs']
    simp [hc]

theorem splitInclusiveNl_flatten : ∀ l : List Char, (splitInclusiveNl l).flatten = l := by
  intro l
  induction l with
  | nil => rfl
  | cons c rest ih =>
    show (match splitInclusiveNl rest with
      | [] => [[c]]
      | chunk :: chunks =>
        if c = '\n' then [c] :: chunk :: chunks else (c :: chunk) :: chunks).flatten = c :: rest
    cases h : splitInclusiveNl rest with
    | nil =>
      rw [h] at ih
      simp at ih
      simp [← ih]
    | cons chunk chunks =>
      rw [h] at ih
      by_cases hc : c = '\n'
      · subst hc; simpa [List.flatten] using ih
      · have ih' : chunk ++ chunks.flatten = rest := by simpa using ih
        simp [if_neg hc, List.flatten_cons, ih']

theorem fmScan_skip_chunks : ∀ (ys : List (List Char)) (rest : List (List Char)),
    (∀ ch ∈ ys, trimEndCrLf ch ≠ "---".data ∧ trimEndCrLf ch ≠ "...".data) →
    fmScan (ys ++ rest) =
      (fmScan rest).map (fun yb => (ys.flatten ++ yb.1, yb.2)) := by
  intro ys
  induction ys with
  | nil =>
    intro rest _
    cases h : fmScan rest <;> simp [h]
  | cons ch ys' ih =>
    intro rest hys
    obtain ⟨h1, h2⟩ := hys ch (List.mem_cons_self _ _)
    have hys' := fun ch' hch' => hys ch' (List.mem_cons_of_mem _ hch')
    show fmScan (ch :: (ys' ++ rest)) = _
    simp only [fmScan, h1, h2, if_false]
    rw [ih rest hys']
    cases h : fmScan rest with
    | none => simp
    | some yb => simp [List.append_assoc]

theorem splitOnChar_ne_nil (c : Char) (l : List Char) : splitOnChar c l ≠ [] := by
  cases l with
  | nil => simp [splitOnChar]
  | cons x xs =>
    simp only [splitOnChar]
    by_cases h : x = c
    · simp [h]
    · simp only [h, if_false]
      cases hs : splitOnChar c xs <;> simp

theorem splitOnChar_cons_line : ∀ (s t : List Char), (∀ c ∈ s, c ≠ '\n') →
    splitOnChar '\n' (s ++ '\n' :: t) = s :: splitOnChar '\n' t := by
  intro s
  induction s with
  | nil => intro t _; simp [splitOnChar]
  | cons c s' ih =>
    intro t hs
    have hc : c ≠ '\n' := hs c (List.mem_cons_self _ _)
    have hs' : ∀ d ∈ s', d ≠ '\n' := fun d hd => hs d (List.mem_cons_of_mem _ hd)
    show splitOnChar '\n' (c :: (s' ++ '\n' :: t)) = _
    simp only [splitOnChar, hc, if_false]
    rw [ih t hs']

theorem dropLastEmpty_cons (p : List Char) (ps : List (List Char)) (h : ps ≠ []) :
    dropLastEmpty (p :: ps) = p :: dropLastEmpty ps := by
  cases ps with
  | nil => exact absurd rfl h
  | cons q qs => rfl

theorem rustLines_cons (s t : List Char) (hs : ∀ c ∈ s, c ≠ '\n') :
    rustLines (s ++ '\n' :: t) = stripCr s :: rustLines t := by
  unfold rustLines
  rw [splitOnChar_cons_line s t hs, dropLastEmpty_cons s _ (splitOnChar_ne_nil _ _)]
  rfl

theorem stripCr_no_cr (s : List Char) (hs : ∀ c ∈ s, c ≠ '\r') : stripCr s = s := by
  unfold stripCr
  rw [if_neg]
  intro hlast
  have hmem : ('\r' : Char) ∈ s.getLast? := hlast ▸ rfl
  obtain ⟨hne, heq⟩ := List.mem_getLast?_eq_getLast hmem
  exact hs _ (heq ▸ List.getLast_mem hne) rfl

theorem rustLines_chunks : ∀ (lines : List (List Char)) (t : List Char),
    (∀ l ∈ lines, ∀ c ∈ l, c ≠ '\n') →
    rustLines ((lines.map (fun l => l ++ ['\n'])).flatten ++ t) =
      lines.map stripCr ++ rustLines t := by
  intro lines
  induction lines with
  | nil => intro t _; simp
  | cons l ls ih =>
    intro t hl
    have h1 := hl l (List.mem_cons_self _ _)
    have h2 := fun l' hl' => hl l' (List.mem_cons_of_mem _ hl')
    simp only [List.map_cons, List.flatten_cons, List.append_assoc, List.singleton_append,
      List.cons_append, List.nil_append]
    rw [rustLines_cons l _ h1, ih t h2]

theorem collectYaml_noclose : ∀ ls : List (List Char), (∀ l ∈ ls, trim l ≠ "---".data) →
    collectYaml ls = ((ls.map (fun l => l ++ ['\n'])).flatten, false) := by
  intro ls
  induction ls with
  | nil => intro _; rfl
  | cons l ls' ih =>
    intro hl
    have h1 := hl l (List.mem_cons_self _ _)
    have h2 := fun l' hl' => hl l' (List.mem_cons_of_mem _ hl')
    simp only [collectYaml, h1, if_false, ih h2, List.map_cons, List.flatten_cons,
      List.append_assoc, List.singleton_append]

theorem collectYaml_close : ∀ (ls : List (List Char)) (rest : List (List Char)),
    (∀ l ∈ ls, trim l ≠ "---".data) →
    collectYaml (ls ++ "---".data :: rest) =
      ((ls.map (fun l => l ++ ['\n'])).flatten, true) := by
  intro ls
  induction ls with
  | nil =>
    intro rest _
    show collectYaml ("---".data :: rest) = ([], true)
    simp [collectYaml, show trim "---".data = "---".data from by decide]
  | cons l ls' ih =>
    intro rest hl
    have h1 := hl l (List.mem_cons_self _ _)
    have h2 := fun l' hl' => hl l' (List.mem_cons_of_mem _ hl')
    show collectYaml (l :: (ls' ++ "---".data :: rest)) = _
    simp only [collectYaml, h1, if_false, ih rest h2, List.map_cons, List.flatten_cons,
      List.append_assoc, List.singleton_append]

/-- C7 counterexample: on the manifest text
`---\nname: a\n...\nBody\n` (frontmatter closed by `...`), the runtime
manager's parser accepts the closing `...` and yields the trimmed body,
but the installer-side parser rejects the text outright (it accepts only
`---` as the closing delimiter, and never yields a body at all) —
refuting the claim that both parsers accept `---` or `...`. -/
theorem c7_counterexample_dotdotdot_close :
    split_frontmatter "---\nname: a\n...\nBody\n".data =
      some ("name: a\n".data, "Body".data) ∧
    parse_frontmatter "---\nname: a\n...\nBody\n".data demoHubYaml = none := by
  constructor
  · decide
  · decide

/-- C7 (amended): for manifest texts whose first line is `---`, the
runtime manager's `split_frontmatter` accepts a closing line that is
exactly `---` or exactly `...`, yielding the enclosed yaml and a body
equal to all content after the closing delimiter, trimmed; the
installer's `parse_frontmatter` returns `none` whenever no later line
trims to `---` (in particular when the frontmatter is closed only by
`...`), and accepts a `---`-closed block, yielding the enclosed yaml to
the yaml deserializer and no body. -/
theorem c7_amended_frontmatter_delimiters :
    (∀ (lines : List (List Char)) (close bs : List Char),
      (∀ l ∈ lines, (∀ c ∈ l, c ≠ '\n') ∧ trimEndCrLf l ≠ "---".data ∧
        trimEndCrLf l ≠ "...".data) →
      (close = "---".data ∨ close = "...".data) →
      split_frontmatter (fmDoc lines close bs) =
        some ((lines.map (fun l => l ++ ['\n'])).flatten, trim bs)) ∧
    (∀ (md : List Char) (yp : HubYamlParse),
      (∀ l ∈ (rustLines md).drop 1, trim l ≠ "---".data) →
      parse_frontmatter md yp = none) ∧
    (∀ (lines : List (List Char)) (bs : List Char) (yp : HubYamlParse),
      (∀ l ∈ lines, (∀ c ∈ l, c ≠ '\n') ∧ (∀ c ∈ l, c ≠ '\r') ∧ trim l ≠ "---".data) →
      (trim ((lines.map (fun l => l ++ ['\n'])).flatten)).isEmpty = false →
      parse_frontmatter (fmDoc lines "---".data bs) yp =
        yp ((lines.map (fun l => l ++ ['\n'])).flatten)) := by
  refine ⟨?_, ?_, ?_⟩
  · intro lines close bs hlines hclose
    have hnl : ∀ c ∈ close, c ≠ '\n' := by
      rcases hclose with rfl | rfl <;> decide
    have hshape : fmDoc lines close bs =
        "---".data ++ '\n' :: ((lines.map (fun l => l ++ ['\n'])).flatten ++
          (close ++ '\n' :: bs)) := by
      simp [fmDoc, List.append_assoc]
    have hchunksnl : ∀ l ∈ lines, ∀ c ∈ l, c ≠ '\n' := fun l hl => (hlines l hl).1
    have hsplit : splitInclusiveNl (fmDoc lines close bs) =
        ("---".data ++ ['\n']) :: (lines.map (fun l => l ++ ['\n']) ++
          ((close ++ ['\n']) :: splitInclusiveNl bs)) := by
      rw [hshape, splitInclusiveNl_chunk _ _ (by decide)]
      congr 1
      have : ∀ (ls : List (List Char)) (t : List Char), (∀ l ∈ ls, ∀ c ∈ l, c ≠ '\n') →
          splitInclusiveNl ((ls.map (fun l => l ++ ['\n'])).flatten ++ t) =
            ls.map (fun l => l ++ ['\n']) ++ splitInclusiveNl t := by
        intro ls
        induction ls with
        | nil => intro t _; simp
        | cons l ls' ih =>
          intro t hls
          simp only [List.map_cons, List.flatten_cons, List.append_assoc,
            List.singleton_append, List.cons_append, List.nil_append]
          rw [splitInclusiveNl_chunk l _ (hls l (List.mem_cons_self _ _)),
            ih t (fun l' h' => hls l' (List.mem_cons_of_mem _ h'))]
      rw [this lines (close ++ '\n' :: bs) hchunksnl,
        splitInclusiveNl_chunk close bs hnl]
    unfold split_frontmatter
    rw [hsplit]
    have hfirst : trimEndCrLf ("---".data ++ ['\n']) = "---".data := by decide
    have hys : ∀ ch ∈ lines.map (fun l => l ++ ['\n']),
        trimEndCrLf ch ≠ "---".data ∧ trimEndCrLf ch ≠ "...".data := by
      intro ch hch
      obtain ⟨l, hl, rfl⟩ := List.mem_map.mp hch
      rw [trimEndCrLf_append_nl]
      exact ⟨(hlines l hl).2.1, (hlines l hl).2.2⟩
    have hclosetrim : trimEndCrLf (close ++ ['\n']) = "---".data ∨
        trimEndCrLf (close ++ ['\n']) = "...".data := by
      rcases hclose with rfl | rfl
      · left; decide
      · right; decide
    have hcl : fmScan ((close ++ ['\n']) :: splitInclusiveNl bs) =
        some ([], trim (splitInclusiveNl bs).flatten) := by
      rcases hclosetrim with h | h <;> simp [fmScan, h]
    simp only [hfirst, if_pos, fmScan_skip_chunks _ _ hys, hcl, splitInclusiveNl_flatten]
    simp
  · intro md yp hmd
    unfold parse_frontmatter
    cases h : rustLines md with
    | nil => rfl
    | cons first rest =>
      rw [h] at hmd
      simp only [List.drop_succ_cons, List.drop_zero] at hmd
      by_cases hf : trim first = "---".data
      · have hc := collectYaml_noclose rest hmd
        simp [hf, hc]
      · simp [hf]
  · intro lines bs yp hlines htrim
    have hshape : fmDoc lines "---".data bs =
        "---".data ++ '\n' :: ((lines.map (fun l => l ++ ['\n'])).flatten ++
          ("---".data ++ '\n' :: bs)) := by
      simp [fmDoc, List.append_assoc]
    have hmap : lines.map stripCr = lines := by
      have : ∀ l ∈ lines, stripCr l = id l :=
        fun l hl => stripCr_no_cr l (hlines l hl).2.1
      rw [List.map_congr_left this, List.map_id]
    have hrl : rustLines (fmDoc lines "---".data bs) =
        "---".data :: (lines ++ "---".data :: rustLines bs) := by
      rw [hshape, rustLines_cons _ _ (by decide),
        rustLines_chunks lines _ (fun l hl => (hlines l hl).1),
        rustLines_cons _ _ (by decide), hmap,
        show stripCr "---".data = "---".data from by decide]
    unfold parse_frontmatter
    rw [hrl]
    have hcy := collectYaml_close lines (rustLines bs) (fun l hl => (hlines l hl).2.2)
    simp [show ¬ trim "---".data ≠ "---".data from by decide, hcy, htrim]

/-- C7 witness: the amended theorem applied at concrete manifests, for
both closing delimiters on the runtime side and both installer outcomes. -/
theorem c7_amended_frontmatter_delimiters_witness :
    split_frontmatter (fmDoc ["name: a".data] "...".data "Body ".data) =
      some (([["name: a".data].map (fun l => l ++ ['\n'])]).flatten.flatten, trim "Body ".data) ∧
    parse_frontmatter "---\nname: a\n...\nBody\n".data demoHubYaml = none ∧
    parse_frontmatter (fmDoc ["name: a".data] "---".data "Body ".data) demoHubYaml =
      demoHubYaml ((["name: a".data].map (fun l => l ++ ['\n'])).flatten) := by
  refine ⟨?_, ?_, ?_⟩
  · have h := c7_amended_frontmatter_delimiters.1 ["name: a".data] "...".data "Body ".data
      (by decide) (Or.inr rfl)
    simpa using h
  · exact c7_amended_frontmatter_delimiters.2.1 "---\nname: a\n...\nBody\n".data demoHubYaml
      (by decide)
  · exact c7_amended_frontmatter_delimiters.2.2 ["name: a".data] "Body ".data demoHubYaml
      (by decide) (by decide)

theorem remainderAfter_append : ∀ p r : Path, remainderAfter p (p ++ r) = some r := by
  intro p r
  induction p with
  | nil => simp [remainderAfter]
  | cons a p' ih => simpa [remainderAfter] using ih

theorem remainderAfter_eq_some_iff : ∀ (p q r : Path),
    remainderAfter p q = some r ↔ q = p ++ r := by
  intro p
  induction p with
  | nil => intro q r; simp [remainderAfter, eq_comm]
  | cons a p' ih =>
    intro q r
    cases q with
    | nil => simp [remainderAfter]
    | cons b q' =>
      by_cases hab : a = b
      · subst hab
        simp [remainderAfter, ih]
      · simp [remainderAfter, hab, Ne.symm hab]

theorem remainderAfter_none_of_not_prefix (p q : Path) (h : ¬ p <+: q) :
    remainderAfter p q = none := by
  cases hr : remainderAfter p q with
  | none => rfl
  | some r =>
    exact absurd ⟨r, ((remainderAfter_eq_some_iff p q r).mp hr).symm⟩ h

theorem sibling_no_pref (p1 p2 : Path) (r : Path)
    (h1 : ¬ p1 <+: p2) (h2 : ¬ p2 <+: p1) : ¬ p1 <+: (p2 ++ r) := by
  intro hc
  rcases List.prefix_or_prefix_of_prefix hc (List.prefix_append p2 r) with h | h
  · exact h1 h
  · exact h2 h

/-- C1: for two non-nested roots where both define a skill with the same
case-insensitive name, the later (higher-precedence) root's entry failing
a gate and the earlier root's entry passing both: the gated catalog
listing contains exactly the earlier root's entry, while activation of
that name selects the later root's entry and returns its gate error
rather than falling back to the earlier passing entry. -/
theorem c1_gated_merge_vs_activation
    (yp : YamlParse) (env : Env) (p1 p2 : Path) (c1d c2d : String)
    (content1 content2 : List Char) (s1 s2 : String)
    (meta1 meta2 : SkillMetadata) (b1 b2 : List Char) (e q : String)
    (hp12 : ¬ p1 <+: p2) (hp21 : ¬ p2 <+: p1)
    (h1 : parse_skill_md yp content1 (p1 ++ [c1d]) s1 = some (meta1, b1))
    (h2 : parse_skill_md yp content2 (p2 ++ [c2d]) s2 = some (meta2, b2))
    (havail1 : skill_is_available env meta1 = .ok ())
    (havail2 : skill_is_available env meta2 = .error e)
    (hk : lowerStr meta1.name = lowerStr meta2.name)
    (hq0 : (strTrim q).data.isEmpty = false)
    (hq2 : eqIgnoreCase meta2.name (strTrim q) = true) :
    discover_skills yp env (fsTwo p1 c1d content1 p2 c2d content2) ⟨[⟨p1, s1⟩, ⟨p2, s2⟩]⟩ =
      [meta1] ∧
    load_skill_checked yp env (fsTwo p1 c1d content1 p2 c2d content2) ⟨[⟨p1, s1⟩, ⟨p2, s2⟩]⟩ q =
      .error e := by
  have hA : remainderAfter p1 (p1 ++ [c1d, skillFileName]) = some [c1d, skillFileName] :=
    remainderAfter_append p1 _
  have hB : remainderAfter p1 (p2 ++ [c2d, skillFileName]) = none :=
    remainderAfter_none_of_not_prefix _ _ (sibling_no_pref p1 p2 _ hp12 hp21)
  have hC : remainderAfter p2 (p2 ++ [c2d, skillFileName]) = some [c2d, skillFileName] :=
    remainderAfter_append p2 _
  have hD : remainderAfter p2 (p1 ++ [c1d, skillFileName]) = none :=
    remainderAfter_none_of_not_prefix _ _ (sibling_no_pref p2 p1 _ hp21 hp12)
  have hchild1 : childNames (fsTwo p1 c1d content1 p2 c2d content2) p1 = [c1d] := by
    simp [childNames, fsTwo, List.filterMap_cons, hA, hB, dedupFirst, dedupFirstAux]
  have hchild2 : childNames (fsTwo p1 c1d content1 p2 c2d content2) p2 = [c2d] := by
    simp [childNames, fsTwo, List.filterMap_cons, hC, hD, dedupFirst, dedupFirstAux]
  have hne12 : p1 ++ [c1d, skillFileName] ≠ p2 ++ [c2d, skillFileName] := by
    intro he
    rw [← he] at hB
    rw [hA] at hB
    exact Option.noConfusion hB
  have hlook1 : lookupFile (fsTwo p1 c1d content1 p2 c2d content2)
      (p1 ++ [c1d, skillFileName]) = some content1 := by
    simp [lookupFile, fsTwo]
  have hlook2 : lookupFile (fsTwo p1 c1d content1 p2 c2d content2)
      (p2 ++ [c2d, skillFileName]) = some content2 := by
    simp [lookupFile, fsTwo, hne12]
  have hscan1 : ∀ inc, rootScan yp env (fsTwo p1 c1d content1 p2 c2d content2) inc ⟨p1, s1⟩ [] =
      [(lowerStr meta1.name, meta1)] := by
    intro inc
    simp [rootScan, rootScanStep, hchild1, hlook1, h1, havail1, insertAssoc, Except.isOk, Except.toBool]
  have hscan2f : rootScan yp env (fsTwo p1 c1d content1 p2 c2d content2) false ⟨p2, s2⟩
      [(lowerStr meta1.name, meta1)] = [(lowerStr meta1.name, meta1)] := by
    simp [rootScan, rootScanStep, hchild2, hlook2, h2, havail2, Except.isOk, Except.toBool]
  have hscan2t : rootScan yp env (fsTwo p1 c1d content1 p2 c2d content2) true ⟨p2, s2⟩
      [(lowerStr meta1.name, meta1)] = [(lowerStr meta2.name, meta2)] := by
    simp [rootScan, rootScanStep, hchild2, hlook2, h2, insertAssoc, hk]
  have hdiscF : discover_skills yp env (fsTwo p1 c1d content1 p2 c2d content2)
      ⟨[⟨p1, s1⟩, ⟨p2, s2⟩]⟩ = [meta1] := by
    simp [discover_skills, discover_skills_internal, List.foldl, hscan1, hscan2f,
      sortMetas, insertMeta]
  have hdiscT : discover_skills_internal yp env (fsTwo p1 c1d content1 p2 c2d content2)
      ⟨[⟨p1, s1⟩, ⟨p2, s2⟩]⟩ true = [meta2] := by
    simp [discover_skills_internal, List.foldl, hscan1, hscan2t, sortMetas, insertMeta]
  refine ⟨hdiscF, ?_⟩
  simp [load_skill_checked, hq0, hdiscT, List.find?, hq2, havail2]

/-- C1 witness: the theorem applied to a concrete pair of roots where the
later root's `demo` skill declares a missing dependency `xtool` and the
earlier root's `demo` skill passes both gates. -/
theorem c1_gated_merge_vs_activation_witness :
    discover_skills demoMgrYaml envBare
        (fsTwo ["r1"] "demo" "---\nname: demo\n---\nBody one\n".data
               ["r2"] "demo" "---\nname: demo\ndeps: [xtool]\n---\nBody two\n".data)
        ⟨[⟨["r1"], "agents-personal"⟩, ⟨["r2"], "workspace"⟩]⟩ =
      [{ name := "demo", description := "", dir_path := ["r1", "demo"], platforms := [],
         deps := [], source := "agents-personal", version := none, updated_at := none }] ∧
    load_skill_checked demoMgrYaml envBare
        (fsTwo ["r1"] "demo" "---\nname: demo\n---\nBody one\n".data
               ["r2"] "demo" "---\nname: demo\ndeps: [xtool]\n---\nBody two\n".data)
        ⟨[⟨["r1"], "agents-personal"⟩, ⟨["r2"], "workspace"⟩]⟩ "demo" =
      .error "Skill 'demo' is missing required dependencies: xtool" :=
  c1_gated_merge_vs_activation demoMgrYaml envBare ["r1"] ["r2"] "demo" "demo"
    "---\nname: demo\n---\nBody one\n".data "---\nname: demo\ndeps: [xtool]\n---\nBody two\n".data
    "agents-personal" "workspace"
    { name := "demo", description := "", dir_path := ["r1", "demo"], platforms := [],
      deps := [], source := "agents-personal", version := none, updated_at := none }
    { name := "demo", description := "", dir_path := ["r2", "demo"], platforms := [],
      deps := ["xtool"], source := "workspace", version := none, updated_at := none }
    "Body one".data "Body two".data
    "Skill 'demo' is missing required dependencies: xtool" "demo"
    (by decide) (by decide) (by decide) (by decide) (by rfl) (by rfl)
    (by decide) (by decide) (by decide)

/-- C2: a skill whose manifest declares a dependency that does not
resolve on `PATH` is absent from the gated catalog listing, yet
activation by its name still resolves it and returns the
dependency-specific error listing exactly the declared dependency names
that fail the `PATH` check (joined by `", "`), rather than a not-found
error; `missing_deps` is by construction the sublist of declared names
failing `command_exists`. -/
theorem c2_missing_dep_listing_vs_activation
    (yp : YamlParse) (env : Env) (p : Path) (cdir : String) (content : List Char)
    (s : String) (meta : SkillMetadata) (body : List Char) (q : String)
    (hparse : parse_skill_md yp content (p ++ [cdir]) s = some (meta, body))
    (hplat : platform_allowed env meta.platforms = true)
    (hmiss : missing_deps env meta.deps ≠ [])
    (hq0 : (strTrim q).data.isEmpty = false)
    (hq2 : eqIgnoreCase meta.name (strTrim q) = true) :
    discover_skills yp env (fsOne p cdir content) ⟨[⟨p, s⟩]⟩ = [] ∧
    load_skill_checked yp env (fsOne p cdir content) ⟨[⟨p, s⟩]⟩ q =
      .error ("Skill '" ++ meta.name ++ "' is missing required dependencies: " ++
        String.intercalate ", " (missing_deps env meta.deps)) ∧
    missing_deps env meta.deps = meta.deps.filter (fun dep => !command_exists env dep) := by
  have havail : skill_is_available env meta =
      .error ("Skill '" ++ meta.name ++ "' is missing required dependencies: " ++
        String.intercalate ", " (missing_deps env meta.deps)) := by
    have hm : (missing_deps env meta.deps).isEmpty = false := by
      cases hmm : missing_deps env meta.deps with
      | nil => exact absurd hmm hmiss
      | cons a t => rfl
    simp [skill_is_available, hplat, hm]
  have hA : remainderAfter p (p ++ [cdir, skillFileName]) = some [cdir, skillFileName] :=
    remainderAfter_append p _
  have hchild : childNames (fsOne p cdir content) p = [cdir] := by
    simp [childNames, fsOne, List.filterMap_cons, hA, dedupFirst, dedupFirstAux]
  have hlook : lookupFile (fsOne p cdir content) (p ++ [cdir, skillFileName]) = some content := by
    simp [lookupFile, fsOne]
  have hscanF : rootScan yp env (fsOne p cdir content) false ⟨p, s⟩ [] = [] := by
    simp [rootScan, rootScanStep, hchild, hlook, hparse, havail, Except.isOk, Except.toBool]
  have hscanT : rootScan yp env (fsOne p cdir content) true ⟨p, s⟩ [] =
      [(lowerStr meta.name, meta)] := by
    simp [rootScan, rootScanStep, hchild, hlook, hparse, insertAssoc]
  have hdiscF : discover_skills yp env (fsOne p cdir content) ⟨[⟨p, s⟩]⟩ = [] := by
    simp [discover_skills, discover_skills_internal, List.foldl, hscanF, sortMetas]
  refine ⟨hdiscF, ?_, rfl⟩
  have hdiscT : discover_skills_internal yp env (fsOne p cdir content) ⟨[⟨p, s⟩]⟩ true =
      [meta] := by
    simp [discover_skills_internal, List.foldl, hscanT, sortMetas, insertMeta]
  simp [load_skill_checked, hq0, hdiscT, List.find?, hq2, havail]

/-- C2 witness: the theorem applied to a concrete skill declaring the
unresolvable dependency `xtool`. -/
theorem c2_missing_dep_listing_vs_activation_witness :
    discover_skills demoMgrYaml envBare
        (fsOne ["r"] "demo" "---\nname: demo\ndeps: [xtool]\n---\nBody\n".data)
        ⟨[⟨["r"], "workspace"⟩]⟩ = [] ∧
    load_skill_checked demoMgrYaml envBare
        (fsOne ["r"] "demo" "---\nname: demo\ndeps: [xtool]\n---\nBody\n".data)
        ⟨[⟨["r"], "workspace"⟩]⟩ "Demo" =
      .error ("Skill '" ++ "demo" ++ "' is missing required dependencies: " ++
        String.intercalate ", " (missing_deps envBare ["xtool"])) ∧
    missing_deps envBare ["xtool"] = ["xtool"].filter (fun dep => !command_exists envBare dep) := by
  have h := c2_missing_dep_listing_vs_activation demoMgrYaml envBare ["r"] "demo"
    "---\nname: demo\ndeps: [xtool]\n---\nBody\n".data "workspace"
    { name := "demo", description := "", dir_path := ["r", "demo"], platforms := [],
      deps := ["xtool"], source := "workspace", version := none, updated_at := none }
    "Body".data "Demo"
    (by decide) (by decide) (by decide) (by decide) (by decide)
  exact h

theorem parse_skill_md_dir_path (yp : YamlParse) (content : List Char) (dir_path : Path)
    (ds : String) (meta : SkillMetadata) (body : List Char)
    (h : parse_skill_md yp content dir_path ds = some (meta, body)) :
    meta.dir_path = dir_path := by
  unfold parse_skill_md at h
  cases hsf : split_frontmatter (content.dropWhile (fun c => c = '﻿')) with
  | none => rw [hsf] at h; exact Option.noConfusion h
  | some yb =>
    rw [hsf] at h
    obtain ⟨yaml, bodyc⟩ := yb
    by_cases hy : (trim yaml).isEmpty
    · simp only [hy, if_true] at h
      exact Option.noConfusion h
    · simp only [hy, if_false, Bool.false_eq_true] at h
      cases hfm : yp yaml with
      | none => rw [hfm] at h; exact Option.noConfusion h
      | some fm =>
        rw [hfm] at h
        simp only [] at h
        cases hname : (if (strTrim (fm.name.getD "")).data.isEmpty then dir_path.getLast?
            else some (strTrim (fm.name.getD ""))) with
        | none => rw [hname] at h; exact Option.noConfusion h
        | some nm =>
          rw [hname] at h
          injection h with h'
          injection h' with hmeta hbody
          rw [← hmeta]

theorem mem_insertAssoc (k : String) (v : SkillMetadata) :
    ∀ (l : List (String × SkillMetadata)) (kv : String × SkillMetadata),
      kv ∈ insertAssoc k v l → kv = (k, v) ∨ kv ∈ l := by
  intro l
  induction l with
  | nil => intro kv h; simpa [insertAssoc] using h
  | cons hd rest ih =>
    intro kv h
    obtain ⟨k', v'⟩ := hd
    simp only [insertAssoc] at h
    by_cases hk : k' = k
    · rw [if_pos hk] at h
      rcases List.mem_cons.mp h with rfl | h
      · exact Or.inl rfl
      · exact Or.inr (List.mem_cons_of_mem _ h)
    · rw [if_neg hk] at h
      rcases List.mem_cons.mp h with rfl | h
      · exact Or.inr (List.mem_cons_self _ _)
      · rcases ih kv h with h1 | h1
        · exact Or.inl h1
        · exact Or.inr (List.mem_cons_of_mem _ h1)

theorem mem_rootScanStep (yp : YamlParse) (env : Env) (fs : Fs) (inc : Bool)
    (root : SkillRoot) (m : List (String × SkillMetadata)) (c : String)
    (kv : String × SkillMetadata) (h : kv ∈ rootScanStep yp env fs inc root m c) :
    kv ∈ m ∨ kv.2.dir_path = root.path ++ [c] := by
  unfold rootScanStep at h
  cases hlk : lookupFile fs (root.path ++ [c] ++ [skillFileName]) with
  | none => rw [hlk] at h; exact Or.inl h
  | some content =>
    rw [hlk] at h
    simp only [] at h
    cases hp : parse_skill_md yp content (root.path ++ [c]) root.source with
    | none => rw [hp] at h; exact Or.inl h
    | some mb =>
      rw [hp] at h
      simp only [] at h
      obtain ⟨meta, bd⟩ := mb
      by_cases hg : inc || (skill_is_available env meta).isOk
      · rw [if_pos hg] at h
        rcases mem_insertAssoc _ _ m kv h with rfl | h
        · exact Or.inr (parse_skill_md_dir_path yp content _ root.source meta bd hp)
        · exact Or.inl h
      · rw [if_neg hg] at h
        exact Or.inl h

theorem mem_rootScan_foldl (yp : YamlParse) (env : Env) (fs : Fs) (inc : Bool)
    (root : SkillRoot) :
    ∀ (cs : List String) (acc : List (String × SkillMetadata)) (kv : String × SkillMetadata),
      kv ∈ cs.foldl (rootScanStep yp env fs inc root) acc →
      kv ∈ acc ∨ ∃ c, kv.2.dir_path = root.path ++ [c] := by
  intro cs
  induction cs with
  | nil => intro acc kv h; exact Or.inl h
  | cons c cs' ih =>
    intro acc kv h
    rcases ih (rootScanStep yp env fs inc root acc c) kv h with h1 | h1
    · rcases mem_rootScanStep yp env fs inc root acc c kv h1 with h2 | h2
      · exact Or.inl h2
      · exact Or.inr ⟨c, h2⟩
    · exact Or.inr h1

theorem mem_roots_foldl (yp : YamlParse) (env : Env) (fs : Fs) (inc : Bool) :
    ∀ (rs : List SkillRoot) (acc : List (String × SkillMetadata))
      (kv : String × SkillMetadata),
      kv ∈ rs.foldl (fun a root => rootScan yp env fs inc root a) acc →
      kv ∈ acc ∨ ∃ r ∈ rs, ∃ c, kv.2.dir_path = r.path ++ [c] := by
  intro rs
  induction rs with
  | nil => intro acc kv h; exact Or.inl h
  | cons r rs' ih =>
    intro acc kv h
    rcases ih (rootScan yp env fs inc r acc) kv h with h1 | h1
    · rcases mem_rootScan_foldl yp env fs inc r (childNames fs r.path) acc kv h1 with h2 | h2
      · exact Or.inl h2
      · exact Or.inr ⟨r, List.mem_cons_self _ _, h2⟩
    · obtain ⟨r', hr', hc⟩ := h1
      exact Or.inr ⟨r', List.mem_cons_of_mem _ hr', hc⟩

theorem mem_insertMeta (a : SkillMetadata) :
    ∀ (l : List SkillMetadata) (x : SkillMetadata), x ∈ insertMeta a l ↔ x = a ∨ x ∈ l := by
  intro l
  induction l with
  | nil => intro x; simp [insertMeta]
  | cons b rest ih =>
    intro x
    simp only [insertMeta]
    by_cases hab : strLt a.name b.name
    · simp [if_pos hab, or_comm, or_assoc, or_left_comm]
    · rw [if_neg hab]
      simp only [List.mem_cons, ih]
      tauto

theorem mem_sortMetas : ∀ (l : List SkillMetadata) (x : SkillMetadata),
    x ∈ sortMetas l ↔ x ∈ l := by
  intro l
  induction l with
  | nil => intro x; simp [sortMetas]
  | cons a rest ih =>
    intro x
    simp only [sortMetas, mem_insertMeta, ih, List.mem_cons]

theorem discover_mem_shape (yp : YamlParse) (env : Env) (fs : Fs) (m : SkillManager)
    (b : Bool) (meta : SkillMetadata)
    (h : meta ∈ discover_skills_internal yp env fs m b) :
    ∃ r ∈ m.roots, ∃ c, meta.dir_path = r.path ++ [c] := by
  unfold discover_skills_internal at h
  rw [mem_sortMetas] at h
  obtain ⟨kv, hkv, hproj⟩ := List.mem_map.mp h
  rcases mem_roots_foldl yp env fs b m.roots [] kv hkv with h1 | h1
  · simp at h1
  · obtain ⟨r, hr, c, hc⟩ := h1
    exact ⟨r, hr, c, hproj ▸ hc⟩

theorem load_ok_shape (yp : YamlParse) (env : Env) (fs : Fs) (m : SkillManager)
    (q : String) (meta : SkillMetadata) (body : List Char)
    (h : load_skill_checked yp env fs m q = .ok (meta, body)) :
    ∃ r ∈ m.roots, ∃ c, meta.dir_path = r.path ++ [c] := by
  unfold load_skill_checked at h
  by_cases hq : (strTrim q).data.isEmpty
  · rw [if_pos hq] at h; exact Except.noConfusion h
  · simp only [hq, Bool.false_eq_true, if_false] at h
    cases hfind : (discover_skills_internal yp env fs m true).find?
        (fun skill => eqIgnoreCase skill.name (strTrim q)) with
    | none =>
      rw [hfind] at h
      by_cases hav : (discover_skills yp env fs m).isEmpty
      · simp only [hav, if_true] at h; exact Except.noConfusion h
      · simp only [hav, Bool.false_eq_true, if_false] at h; exact Except.noConfusion h
    | some skill =>
      rw [hfind] at h
      simp only [] at h
      cases hava : skill_is_available env skill with
      | error e => rw [hava] at h; exact Except.noConfusion h
      | ok u =>
        rw [hava] at h
        simp only [] at h
        cases hlk : lookupFile fs (skill.dir_path ++ [skillFileName]) with
        | none => rw [hlk] at h; exact Except.noConfusion h
        | some content =>
          rw [hlk] at h
          simp only [] at h
          cases hp : parse_skill_md yp content skill.dir_path skill.source with
          | none => rw [hp] at h; exact Except.noConfusion h
          | some mb =>
            rw [hp] at h
            simp only [] at h
            obtain ⟨meta', body'⟩ := mb
            injection h with h'
            injection h' with hmeta hbody
            have hskill : skill ∈ discover_skills_internal yp env fs m true :=
              List.mem_of_find?_eq_some hfind
            obtain ⟨r, hr, c, hc⟩ := discover_mem_shape yp env fs m true skill hskill
            have hdp : meta.dir_path = skill.dir_path := by
              rw [← hmeta]
              exact parse_skill_md_dir_path yp content _ skill.source meta' body' hp
            exact ⟨r, hr, c, hdp ▸ hc⟩

theorem hubWalk_mem (yp : HubYamlParse) (fs : Fs) (root rel : Path) (content : List Char)
    (hadmw : walkAdmits root (rel ++ [skillFileName]) = true) :
    ∀ (files : List FsFile) (seen : List Path),
      FsFile.mk (root ++ (rel ++ [skillFileName])) content ∈ files →
      (root ++ rel) ∈ (hubWalk yp fs root seen files).map (fun d => d.dir) ∨
        (root ++ rel) ∈ seen := by
  intro files
  induction files with
  | nil => intro seen h; simp at h
  | cons f rest ih =>
    intro seen hmem
    rcases List.mem_cons.mp hmem with heq | hmem'
    · rw [← heq]
      have hrem : remainderAfter root (root ++ (rel ++ [skillFileName])) =
          some (rel ++ [skillFileName]) := remainderAfter_append root _
      have hcond : (decide (rel ++ [skillFileName] ≠ []) &&
          decide (List.getLast? (rel ++ [skillFileName]) = some skillFileName) &&
          walkAdmits root (rel ++ [skillFileName])) = true := by
        simp [hadmw]
      have hdl : (rel ++ [skillFileName]).dropLast = rel := by
        simp
      simp only [hubWalk, hrem]
      rw [if_pos hcond, hdl]
      by_cases hseen : root ++ rel ∈ seen
      · rw [if_pos hseen]
        exact Or.inr hseen
      · rw [if_neg hseen]
        exact Or.inl (by simp)
    · show (root ++ rel) ∈ (hubWalk yp fs root seen (f :: rest)).map (fun d => d.dir) ∨ _
      cases hrem : remainderAfter root f.path with
      | none =>
        simp only [hubWalk, hrem]
        exact ih seen hmem'
      | some relf =>
        simp only [hubWalk, hrem]
        by_cases hcond : (decide (relf ≠ []) &&
            decide (List.getLast? relf = some skillFileName) &&
            walkAdmits root relf) = true
        · rw [if_pos hcond]
          by_cases hseen : root ++ relf.dropLast ∈ seen
          · rw [if_pos hseen]
            exact ih seen hmem'
          · rw [if_neg hseen]
            rcases ih ((root ++ relf.dropLast) :: seen) hmem' with h1 | h1
            · exact Or.inl (by simp only [List.map_cons, List.mem_cons]; exact Or.inr h1)
            · rcases List.mem_cons.mp h1 with h2 | h2
              · exact Or.inl (by simp [h2])
              · exact Or.inr h2
        · rw [if_neg hcond]
          exact ih seen hmem'

/-- C10: the runtime skill manager examines only immediate child
directories of each root: a `SKILL.md` directory nested deeper than one
level never yields a catalog entry (in either merge mode) and never the
metadata returned by activation, as long as its directory is not an
immediate child of any configured root; the installer-side discoverer,
walking at any depth, does find that directory. -/
theorem c10_depth_one_manager_vs_hub_walk
    (yph : HubYamlParse) (yp : YamlParse) (env : Env) (fs : Fs) (m : SkillManager)
    (rootPath rel : Path) (content : List Char)
    (hdeep : 2 ≤ rel.length)
    (hfile : FsFile.mk (rootPath ++ (rel ++ [skillFileName])) content ∈ fs)
    (hadmw : walkAdmits rootPath (rel ++ [skillFileName]) = true)
    (hnochild : ∀ r ∈ m.roots, ∀ c, rootPath ++ rel ≠ r.path ++ [c]) :
    (∀ (b : Bool) (meta : SkillMetadata), meta ∈ discover_skills_internal yp env fs m b →
      meta.dir_path ≠ rootPath ++ rel) ∧
    (∀ (q : String) (meta : SkillMetadata) (body : List Char),
      load_skill_checked yp env fs m q = .ok (meta, body) →
      meta.dir_path ≠ rootPath ++ rel) ∧
    (rootPath ++ rel) ∈ (hub_discover_skills yph fs rootPath).map (fun d => d.dir) := by
  refine ⟨?_, ?_, ?_⟩
  · intro b meta hmem hcontra
    obtain ⟨r, hr, c, hc⟩ := discover_mem_shape yp env fs m b meta hmem
    exact hnochild r hr c (hcontra ▸ hc)
  · intro q meta body hload hcontra
    obtain ⟨r, hr, c, hc⟩ := load_ok_shape yp env fs m q meta body hload
    exact hnochild r hr c (hcontra ▸ hc)
  · have hnotroot : rootPath ++ rel ≠ rootPath := by
      intro hcon
      have hlen := congrArg List.length hcon
      rw [List.length_append] at hlen
      omega
    unfold hub_discover_skills
    cases hlk : lookupFile fs (rootPath ++ [skillFileName]) with
    | none =>
      rcases hubWalk_mem yph fs rootPath rel content hadmw fs [] hfile with h | h
      · exact h
      · simp at h
    | some rc =>
      rcases hubWalk_mem yph fs rootPath rel content hadmw fs [rootPath] hfile with h | h
      · simp only [List.map_cons, List.mem_cons]
        exact Or.inr h
      · rw [List.mem_singleton] at h
        exact absurd h hnotroot

/-- C10 witness: a skill two levels below the root is invisible to the
manager but found by the installer-side walk. -/
theorem c10_depth_one_manager_vs_hub_walk_witness :
    (["r", "a", "b"] : Path) ∈
      (hub_discover_skills demoHubYaml
        [⟨["r", "a", "b", "SKILL.md"], "---\nname: demo\n---\nBody\n".data⟩]
        ["r"]).map (fun d => d.dir) ∧
    (∀ (b : Bool) (meta : SkillMetadata),
      meta ∈ discover_skills_internal demoMgrYaml envFull
        [⟨["r", "a", "b", "SKILL.md"], "---\nname: demo\n---\nBody\n".data⟩]
        ⟨[⟨["r"], "workspace"⟩]⟩ b →
      meta.dir_path ≠ ["r", "a", "b"]) := by
  have h := c10_depth_one_manager_vs_hub_walk demoHubYaml demoMgrYaml envFull
    [⟨["r", "a", "b", "SKILL.md"], "---\nname: demo\n---\nBody\n".data⟩]
    ⟨[⟨["r"], "workspace"⟩]⟩ ["r"] ["a", "b"] "---\nname: demo\n---\nBody\n".data
    (by decide) (by decide) (by decide)
    (by
      intro r hr c he
      rw [List.mem_singleton] at hr
      subst hr
      have := congrArg List.length he
      simp at this)
  exact ⟨h.2.2, h.1⟩

theorem parse_skill_md_body (yp : YamlParse) (content : List Char) (dir_path : Path)
    (ds : String) (meta : SkillMetadata) (body : List Char)
    (h : parse_skill_md yp content dir_path ds = some (meta, body)) :
    ∃ yaml, split_frontmatter (content.dropWhile (fun c => c = '﻿')) = some (yaml, body) := by
  unfold parse_skill_md at h
  cases hsf : split_frontmatter (content.dropWhile (fun c => c = '﻿')) with
  | none => rw [hsf] at h; exact Option.noConfusion h
  | some yb =>
    rw [hsf] at h
    obtain ⟨yaml, bodyc⟩ := yb
    by_cases hy : (trim yaml).isEmpty
    · simp only [hy, if_true] at h
      exact Option.noConfusion h
    · simp only [hy, if_false, Bool.false_eq_true] at h
      cases hfm : yp yaml with
      | none => rw [hfm] at h; exact Option.noConfusion h
      | some fm =>
        rw [hfm] at h
        simp only [] at h
        cases hname : (if (strTrim (fm.name.getD "")).data.isEmpty then dir_path.getLast?
            else some (strTrim (fm.name.getD ""))) with
        | none => rw [hname] at h; exact Option.noConfusion h
        | some nm =>
          rw [hname] at h
          injection h with h'
          injection h' with hmeta hbody
          exact ⟨yaml, hbody ▸ rfl⟩

theorem parse_skill_md_source_stable (yp : YamlParse) (content : List Char) (d : Path)
    (ds : String) (meta : SkillMetadata) (body : List Char)
    (h : parse_skill_md yp content d ds = some (meta, body)) :
    parse_skill_md yp content d meta.source = some (meta, body) := by
  unfold parse_skill_md at h ⊢
  cases hsf : split_frontmatter (content.dropWhile (fun c => c = '﻿')) with
  | none => rw [hsf] at h; exact Option.noConfusion h
  | some yb =>
    rw [hsf] at h
    obtain ⟨yaml, bodyc⟩ := yb
    by_cases hy : (trim yaml).isEmpty
    · simp only [hy, if_true] at h
      exact Option.noConfusion h
    · simp only [hy, Bool.false_eq_true, if_false] at h ⊢
      cases hfm : yp yaml with
      | none => rw [hfm] at h; exact Option.noConfusion h
      | some fm =>
        rw [hfm] at h
        try simp only [] at h ⊢
        cases hname : (if (strTrim (fm.name.getD "")).data.isEmpty then d.getLast?
            else some (strTrim (fm.name.getD ""))) with
        | none => rw [hname] at h; exact Option.noConfusion h
        | some nm =>
          rw [hname] at h
          try simp only [] at h ⊢
          injection h with h'
          injection h' with hmeta hbody
          cases hsrc : Option.filter (fun s => !s.data.isEmpty) (Option.map strTrim fm.source) with
          | none =>
            rw [hsrc] at hmeta
            simp only [Option.getD_none] at hmeta ⊢
            have hms : meta.source = ds := by rw [← hmeta]
            rw [hms, hmeta, hbody]
          | some s0 =>
            rw [hsrc] at hmeta
            simp only [Option.getD_some] at hmeta ⊢
            rw [hmeta, hbody]

/-- C8: installing a single-skill local source into a skills root and
then resolving the skill by name through the runtime manager over that
same root succeeds, returning the manager-parsed metadata (whose name
matches the requested name modulo ASCII case) and a body equal to the
source manifest's content after its frontmatter block, trimmed (the
third conjunct ties the returned body to `split_frontmatter` of the very
content the installer copied). -/
theorem c8_install_roundtrip
    (yph : HubYamlParse) (yp : YamlParse) (env : Env)
    (srcRoot skillsRoot : Path) (content : List Char) (orig rootTag : String)
    (meta : SkillMetadata) (body : List Char) (q : String) (force : Bool)
    (hdisj : ¬ skillsRoot <+: (srcRoot ++ [skillFileName]))
    (hparse : parse_skill_md yp content
      (skillsRoot ++ [roundtripName yph srcRoot content]) rootTag = some (meta, body))
    (havail : skill_is_available env meta = .ok ())
    (hq0 : (strTrim q).data.isEmpty = false)
    (hq2 : eqIgnoreCase meta.name (strTrim q) = true) :
    install_from_skills_source yph [⟨srcRoot ++ [skillFileName], content⟩]
        ⟨orig, srcRoot, none, none⟩ [] skillsRoot force =
      .ok ([⟨roundtripName yph srcRoot content,
             skillsRoot ++ [roundtripName yph srcRoot content], orig, none⟩],
           [⟨srcRoot ++ [skillFileName], content⟩,
            ⟨skillsRoot ++ [roundtripName yph srcRoot content, skillFileName], content⟩]) ∧
    load_skill_checked yp env
        [⟨srcRoot ++ [skillFileName], content⟩,
         ⟨skillsRoot ++ [roundtripName yph srcRoot content, skillFileName], content⟩]
        ⟨[⟨skillsRoot, rootTag⟩]⟩ q = .ok (meta, body) ∧
    (∃ yaml, split_frontmatter (content.dropWhile (fun c => c = '\uFEFF')) =
      some (yaml, body)) := by
  have hparse2 : parse_skill_md yp content
      (skillsRoot ++ [base_name_for ⟨srcRoot, read_skill_name yph content⟩]) rootTag =
      some (meta, body) := hparse
  have hA : remainderAfter srcRoot (srcRoot ++ [skillFileName]) = some [skillFileName] :=
    remainderAfter_append srcRoot _
  have hlook0 : lookupFile [⟨srcRoot ++ [skillFileName], content⟩] (srcRoot ++ [skillFileName]) =
      some content := by
    simp [lookupFile]
  have hwalk : hubWalk yph [⟨srcRoot ++ [skillFileName], content⟩] srcRoot [srcRoot]
      [⟨srcRoot ++ [skillFileName], content⟩] = [] := by
    by_cases hcond : (decide (([skillFileName] : Path) ≠ []) &&
        decide (List.getLast? ([skillFileName] : Path) = some skillFileName) &&
        walkAdmits srcRoot [skillFileName]) = true
    · simp only [hubWalk, hA]
      rw [if_pos hcond]
      rw [if_pos (show srcRoot ++ (List.dropLast [skillFileName] : Path) ∈ [srcRoot] by simp)]
    · simp only [hubWalk, hA]
      rw [if_neg hcond]
  have hdisc : hub_discover_skills yph [⟨srcRoot ++ [skillFileName], content⟩] srcRoot =
      [⟨srcRoot, read_skill_name yph content⟩] := by
    unfold hub_discover_skills
    rw [hlook0, hwalk]
  have hnp : remainderAfter (skillsRoot ++ [base_name_for ⟨srcRoot, read_skill_name yph content⟩])
      (srcRoot ++ [skillFileName]) = none := by
    refine remainderAfter_none_of_not_prefix _ _ (fun hpre => hdisj ?_)
    exact (List.prefix_append skillsRoot
      [base_name_for ⟨srcRoot, read_skill_name yph content⟩]).trans hpre
  have hprep : prepare_install_target [⟨srcRoot ++ [skillFileName], content⟩]
      (skillsRoot ++ [base_name_for ⟨srcRoot, read_skill_name yph content⟩]) force =
      .ok [⟨srcRoot ++ [skillFileName], content⟩] := by
    simp [prepare_install_target, pathExists, hnp]
  have hne : srcRoot ++ [skillFileName] ≠
      skillsRoot ++ [base_name_for ⟨srcRoot, read_skill_name yph content⟩, skillFileName] := by
    intro he
    have hassoc : (skillsRoot ++ [base_name_for ⟨srcRoot, read_skill_name yph content⟩]) ++
        [skillFileName] =
        skillsRoot ++ [base_name_for ⟨srcRoot, read_skill_name yph content⟩, skillFileName] := by
      simp
    have h2 := remainderAfter_append
      (skillsRoot ++ [base_name_for ⟨srcRoot, read_skill_name yph content⟩]) [skillFileName]
    rw [hassoc, ← he, hnp] at h2
    exact Option.noConfusion h2
  have hcopy : copy_directory [⟨srcRoot ++ [skillFileName], content⟩] srcRoot
      (skillsRoot ++ [base_name_for ⟨srcRoot, read_skill_name yph content⟩]) =
      .ok [⟨srcRoot ++ [skillFileName], content⟩,
           ⟨skillsRoot ++ [base_name_for ⟨srcRoot, read_skill_name yph content⟩,
             skillFileName], content⟩] := by
    simp only [copy_directory, List.filterMap_cons, List.filterMap_nil, hA]
    simp [copyFiles, is_safe_relative_path, skillFileName]
  have hens : ensure_skill_md_exists
      [⟨srcRoot ++ [skillFileName], content⟩,
       ⟨skillsRoot ++ [base_name_for ⟨srcRoot, read_skill_name yph content⟩,
         skillFileName], content⟩]
      (skillsRoot ++ [base_name_for ⟨srcRoot, read_skill_name yph content⟩]) = .ok () := by
    simp [ensure_skill_md_exists, lookupFile, hne]
  have hpe : pathExists [⟨srcRoot ++ [skillFileName], content⟩] srcRoot = true := by
    simp only [pathExists, List.any_cons, List.any_nil]
    rw [hA]
    rfl
  have hinstall : install_from_skills_source yph [⟨srcRoot ++ [skillFileName], content⟩]
      ⟨orig, srcRoot, none, none⟩ [] skillsRoot force =
      .ok ([⟨base_name_for ⟨srcRoot, read_skill_name yph content⟩,
             skillsRoot ++ [base_name_for ⟨srcRoot, read_skill_name yph content⟩], orig, none⟩],
           [⟨srcRoot ++ [skillFileName], content⟩,
            ⟨skillsRoot ++ [base_name_for ⟨srcRoot, read_skill_name yph content⟩,
              skillFileName], content⟩]) := by
    simp [install_from_skills_source, hpe, hdisc, filter_discovered_skills, normalize_filters,
      installLoop, pick_unique_install_name, hprep, hcopy, hens]
  have hB : remainderAfter skillsRoot (srcRoot ++ [skillFileName]) = none :=
    remainderAfter_none_of_not_prefix _ _ hdisj
  have hC : remainderAfter skillsRoot
      (skillsRoot ++ [base_name_for ⟨srcRoot, read_skill_name yph content⟩, skillFileName]) =
      some [base_name_for ⟨srcRoot, read_skill_name yph content⟩, skillFileName] :=
    remainderAfter_append skillsRoot _
  have hchild : childNames
      [⟨srcRoot ++ [skillFileName], content⟩,
       ⟨skillsRoot ++ [base_name_for ⟨srcRoot, read_skill_name yph content⟩,
         skillFileName], content⟩]
      skillsRoot = [base_name_for ⟨srcRoot, read_skill_name yph content⟩] := by
    simp [childNames, List.filterMap_cons, hB, hC, dedupFirst, dedupFirstAux]
  have hlook1 : lookupFile
      [⟨srcRoot ++ [skillFileName], content⟩,
       ⟨skillsRoot ++ [base_name_for ⟨srcRoot, read_skill_name yph content⟩,
         skillFileName], content⟩]
      (skillsRoot ++ [base_name_for ⟨srcRoot, read_skill_name yph content⟩, skillFileName]) =
      some content := by
    simp [lookupFile, hne]
  have hscan : ∀ inc, rootScan yp env
      [⟨srcRoot ++ [skillFileName], content⟩,
       ⟨skillsRoot ++ [base_name_for ⟨srcRoot, read_skill_name yph content⟩,
         skillFileName], content⟩]
      inc ⟨skillsRoot, rootTag⟩ [] = [(lowerStr meta.name, meta)] := by
    intro inc
    simp [rootScan, rootScanStep, hchild, hlook1, hparse2, havail, insertAssoc, Except.isOk,
      Except.toBool]
  have hdiscT : discover_skills_internal yp env
      [⟨srcRoot ++ [skillFileName], content⟩,
       ⟨skillsRoot ++ [base_name_for ⟨srcRoot, read_skill_name yph content⟩,
         skillFileName], content⟩]
      ⟨[⟨skillsRoot, rootTag⟩]⟩ true = [meta] := by
    simp [discover_skills_internal, List.foldl, hscan, sortMetas, insertMeta]
  have hload : load_skill_checked yp env
      [⟨srcRoot ++ [skillFileName], content⟩,
       ⟨skillsRoot ++ [base_name_for ⟨srcRoot, read_skill_name yph content⟩,
         skillFileName], content⟩]
      ⟨[⟨skillsRoot, rootTag⟩]⟩ q = .ok (meta, body) := by
    have hdp : meta.dir_path =
        skillsRoot ++ [base_name_for ⟨srcRoot, read_skill_name yph content⟩] :=
      parse_skill_md_dir_path yp content _ rootTag meta body hparse2
    have hstab : parse_skill_md yp content
        (skillsRoot ++ [base_name_for ⟨srcRoot, read_skill_name yph content⟩]) meta.source =
        some (meta, body) :=
      parse_skill_md_source_stable yp content _ rootTag meta body hparse2
    simp [load_skill_checked, hq0, hdiscT, List.find?, hq2, havail, hdp, hlook1, hstab]
  exact ⟨hinstall, hload, parse_skill_md_body yp content _ rootTag meta body hparse2⟩

/-- C8 witness: the round trip at a concrete one-skill local source. -/
theorem c8_install_roundtrip_witness :
    install_from_skills_source demoHubYaml
        [⟨["src", "SKILL.md"], "---\nname: demo\n---\nBody text\n".data⟩]
        ⟨"local-src", ["src"], none, none⟩ [] ["skills"] false =
      .ok ([⟨"demo", ["skills", "demo"], "local-src", none⟩],
           [⟨["src", "SKILL.md"], "---\nname: demo\n---\nBody text\n".data⟩,
            ⟨["skills", "demo", "SKILL.md"], "---\nname: demo\n---\nBody text\n".data⟩]) ∧
    load_skill_checked demoMgrYaml envFull
        [⟨["src", "SKILL.md"], "---\nname: demo\n---\nBody text\n".data⟩,
         ⟨["skills", "demo", "SKILL.md"], "---\nname: demo\n---\nBody text\n".data⟩]
        ⟨[⟨["skills"], "workspace"⟩]⟩ "demo" =
      .ok ({ name := "demo", description := "", dir_path := ["skills", "demo"],
             platforms := [], deps := [], source := "workspace", version := none,
             updated_at := none }, "Body text".data) ∧
    (∃ yaml, split_frontmatter ("---\nname: demo\n---\nBody text\n".data.dropWhile
        (fun c => c = '﻿')) = some (yaml, "Body text".data)) :=
  c8_install_roundtrip demoHubYaml demoMgrYaml envFull ["src"] ["skills"]
    "---\nname: demo\n---\nBody text\n".data "local-src" "workspace"
    { name := "demo", description := "", dir_path := ["skills", "demo"], platforms := [],
      deps := [], source := "workspace", version := none, updated_at := none }
    "Body text".data "demo" false
    (by decide) (by decide) (by rfl) (by decide) (by decide)

end Femto
